import Mathlib

/-!
Verification of the pedigree graph engine of `ibdprep.c`
(src/bin_src/third-party-bins/ibd-src-large/ibdprep.c).

Shallow embedding conventions:
* C arrays indexed by `int` become total functions `Nat → _` (only indices
  below the relevant count are ever read), updated functionally.
* The C sentinel `-1` for "unassigned" pointers/ids is kept as `Int` values
  where the algorithm arithmetic depends on it, or mapped to `Option Nat`
  where only presence matters (noted at each definition).
* `float` kinship arithmetic is modelled over `ℚ`; the recurrences use only
  `+`, `*` and the constants `1`, `1/2`, `1/4`.
* Loops whose termination the C code leaves implicit are given explicit
  fuel and return `Option`/`Except`; `none` models non-termination.
* `fatalError()` (process exit) is modelled as an `Except.error`.
-/

namespace IbdPrep

/-- Functional update of a total map, used for all embedded C arrays. -/
def upd {α : Type} (f : Nat → α) (i : Nat) (v : α) : Nat → α :=
  fun j => if j = i then v else f j

theorem upd_same {α : Type} (f : Nat → α) (i : Nat) (v : α) : upd f i v i = v := by
  simp [upd]

theorem upd_ne {α : Type} (f : Nat → α) (i : Nat) (v : α) {j : Nat} (h : j ≠ i) :
    upd f i v j = f j := by
  simp [upd, h]

/-! # Ingestion validation (`getPedData`, `unknown`), claim C7

`unknown` (ibdprep.c:896-906): a parent id string counts as unknown when
every character is blank, tab or `'0'`.  The per-record parent validation
(ibdprep.c:844-891) is embedded over the id/father/mother strings exactly
as they stand at that point of `getPedData` (family-id prefix already
applied).  Each violated condition calls `logError()`, which increments
`ErrCnt`; after the read loop, `getPedData` calls `fatalError()` iff
`ErrCnt` is non-zero (ibdprep.c:888-891). -/

/-- `unknown` (ibdprep.c:896-906): scans the id; returns `false` at the first
character that is not blank, tab or `'0'`. -/
def unknown : List Char → Bool
  | [] => true
  | c :: rest => if c ≠ ' ' ∧ c ≠ '\t' ∧ c ≠ '0' then false else unknown rest

/-- The number of validation errors `getPedData` logs for one record's
parent fields (ibdprep.c:844-869): inside `if (!unknown(fa) || !unknown(mo))`,
one error for each of: exactly one parent known, father id = own id,
mother id = own id, father id = mother id. -/
def recordParentErrors (id fa mo : List Char) : Nat :=
  if ¬(unknown fa = true) ∨ ¬(unknown mo = true) then
    (if unknown fa = true ∨ unknown mo = true then 1 else 0) +
    (if id = fa then 1 else 0) +
    (if id = mo then 1 else 0) +
    (if fa = mo then 1 else 0)
  else 0

/-- One ingested record, reduced to the fields the parent validation reads. -/
structure PedRecord where
  id : List Char
  fa : List Char
  mo : List Char

/-- Total error count accumulated over the full pass (`ErrCnt` contributions
from the parent checks; `otherErrs` stands for the error count contributed
by the other `logError` call sites of `getPedData`, e.g. the sex-code check). -/
def pedDataErrCnt (recs : List PedRecord) (otherErrs : Nat) : Nat :=
  otherErrs + (recs.map (fun r => recordParentErrors r.id r.fa r.mo)).sum

/-- `getPedData` outcome (ibdprep.c:888-892): after the full pass, fatal
naming the error log iff `ErrCnt` is non-zero. -/
def getPedDataResult (recs : List PedRecord) (otherErrs : Nat) :
    Except String Unit :=
  if pedDataErrCnt recs otherErrs ≠ 0 then
    .error "data errors found. See file \"ibdprep.err\"."
  else .ok ()

/-! # Generation assignment (`makePeds`, ibdprep.c:1672-1696), claim C2

Model: individual `i` is described by `fam i : Option (Nat × Nat)` giving
the indices of father and mother when `i` belongs to a family (`None` =
founder).  On entry to the loop, `gen` is `0` for founders and `-1`
otherwise (set by `getPedData` ibdprep.c:873-879 and for synthesized
parents by `makeFams` ibdprep.c:991/1030), and `genfnd = NumFou`, the
number of founders. -/

/-- One full pass of the assignment loop (ibdprep.c:1675-1691), iterating
over individuals in `IndSort` order; modelled directly over indices
`0..n-1` (the iteration order does not matter for the claims proved).
Returns the updated `gen` map and `genfnd` counter. -/
def genPassStep (fam : Nat → Option (Nat × Nat)) (st : (Nat → Int) × Nat)
    (i : Nat) : (Nat → Int) × Nat :=
  let g := st.1
  if g i < 0 then
    let fg : Int := match fam i with | some (f, _) => g f | none => 0
    let mg : Int := match fam i with | some (_, m) => g m | none => 0
    if 0 ≤ fg ∧ 0 ≤ mg then (upd g i (max fg mg + 1), st.2 + 1) else st
  else st

def genPass (n : Nat) (fam : Nat → Option (Nat × Nat))
    (st : (Nat → Int) × Nat) : (Nat → Int) × Nat :=
  (List.range n).foldl (genPassStep fam) st

/-- The `while (genfnd < NumInd)` loop (ibdprep.c:1673-1696).
`Except.error` is `fatalError` ("pedigree error detected while assigning
generation numbers"); `none` would mean fuel ran out (never happens with
fuel `n+1`, see `genLoop_total`). -/
def genLoop (n : Nat) (fam : Nat → Option (Nat × Nat)) :
    Nat → (Nat → Int) × Nat → Option (Except String ((Nat → Int) × Nat))
  | 0, _ => none
  | fuel + 1, st =>
    if st.2 < n then
      let st' := genPass n fam st
      if st'.2 = st.2 then
        some (.error "pedigree error detected while assigning generation numbers")
      else genLoop n fam fuel st'
    else some (.ok st)

/-- Initial generation state (founders at 0, others unassigned). -/
def genInit (fam : Nat → Option (Nat × Nat)) : Nat → Int :=
  fun i => if (fam i).isNone then 0 else -1

/-- Number of founders among `0..n-1` (`NumFou`). -/
def numFou (n : Nat) (fam : Nat → Option (Nat × Nat)) : Nat :=
  ((Finset.range n).filter (fun i => (fam i).isNone = true)).card

/-- The full generation-assignment phase. -/
def genRun (n : Nat) (fam : Nat → Option (Nat × Nat)) :
    Option (Except String ((Nat → Int) × Nat)) :=
  genLoop n fam (n + 1) (genInit fam, numFou n fam)

/-! ## Invariants of the generation loop -/

/-- Fold preservation helper used throughout the development. -/
theorem foldl_inv {α β : Type} (step : β → α → β) (P : β → Prop) (l : List α)
    (h : ∀ b a, a ∈ l → P b → P (step b a)) : ∀ b, P b → P (l.foldl step b) := by
  induction l with
  | nil => intro b hb; exact hb
  | cons x xs ih =>
    intro b hb
    exact ih (fun b a ha => h b a (List.mem_cons_of_mem _ ha))
      (step b x) (h b x (List.mem_cons_self _ _) hb)

/-- Invariant: founders carry generation 0, and every assigned non-founder
carries exactly `max(father.gen, mother.gen) + 1` with both parents assigned. -/
def GenInv (fam : Nat → Option (Nat × Nat)) (g : Nat → Int) : Prop :=
  (∀ i, fam i = none → g i = 0) ∧
  (∀ i p, fam i = some p → 0 ≤ g i →
    0 ≤ g p.1 ∧ 0 ≤ g p.2 ∧ g i = max (g p.1) (g p.2) + 1)

/-- Counter invariant: `genfnd` equals the number of assigned individuals. -/
def GenCnt (n : Nat) (st : (Nat → Int) × Nat) : Prop :=
  st.2 = ((Finset.range n).filter (fun i => 0 ≤ st.1 i)).card

theorem genPassStep_inv (fam : Nat → Option (Nat × Nat))
    (st : (Nat → Int) × Nat) (i : Nat) (h : GenInv fam st.1) :
    GenInv fam (genPassStep fam st i).1 := by
  obtain ⟨hA, hB⟩ := h
  unfold genPassStep
  by_cases h1 : st.1 i < 0
  · simp only [h1, if_true]
    cases hf : fam i with
    | none => exact absurd (hA i hf) (by omega)
    | some p =>
      simp only [hf]
      by_cases h2 : (0 : Int) ≤ st.1 p.1 ∧ (0 : Int) ≤ st.1 p.2
      · rw [if_pos h2]
        dsimp only
        have hfi : p.1 ≠ i := fun he => by rw [he] at h2; omega
        have hmi : p.2 ≠ i := fun he => by rw [he] at h2; omega
        constructor
        · intro j hj
          have hji : j ≠ i := fun he => by rw [he, hf] at hj; cases hj
          rw [upd_ne _ _ _ hji]; exact hA j hj
        · intro j q hq hjge
          by_cases hji : j = i
          · subst hji
            rw [hf] at hq; injection hq with hq; subst hq
            rw [upd_same, upd_ne _ _ _ hfi, upd_ne _ _ _ hmi]
            exact ⟨h2.1, h2.2, rfl⟩
          · rw [upd_ne _ _ _ hji] at hjge ⊢
            obtain ⟨e1, e2, e3⟩ := hB j q hq hjge
            have hq1 : q.1 ≠ i := fun he => by rw [he] at e1; omega
            have hq2 : q.2 ≠ i := fun he => by rw [he] at e2; omega
            rw [upd_ne _ _ _ hq1, upd_ne _ _ _ hq2]
            exact ⟨e1, e2, e3⟩
      · rw [if_neg h2]; exact ⟨hA, hB⟩
  · simp only [h1, if_false]; exact ⟨hA, hB⟩

theorem genPassStep_cnt (n : Nat) (fam : Nat → Option (Nat × Nat))
    (st : (Nat → Int) × Nat) (i : Nat) (hi : i < n) (h : GenCnt n st) :
    GenCnt n (genPassStep fam st i) := by
  unfold genPassStep
  by_cases h1 : st.1 i < 0
  · simp only [h1, if_true]
    cases hf : fam i with
    | none =>
      simp only
      by_cases h2 : (0 : Int) ≤ (0 : Int) ∧ (0 : Int) ≤ (0 : Int)
      · rw [if_pos h2]
        unfold GenCnt at h ⊢
        simp only
        have hset : (Finset.range n).filter (fun j => 0 ≤ upd st.1 i (max 0 0 + 1) j)
            = insert i ((Finset.range n).filter (fun j => 0 ≤ st.1 j)) := by
          ext j
          simp only [Finset.mem_filter, Finset.mem_insert, Finset.mem_range]
          by_cases hji : j = i
          · subst hji; simp [upd_same, hi]
          · rw [upd_ne _ _ _ hji]; tauto
        rw [hset, Finset.card_insert_of_not_mem (by simp [Finset.mem_filter]; omega), h]
      · rw [if_neg h2]; exact h
    | some p =>
      simp only
      by_cases h2 : (0 : Int) ≤ st.1 p.1 ∧ (0 : Int) ≤ st.1 p.2
      · rw [if_pos h2]
        unfold GenCnt at h ⊢
        simp only
        have hset : (Finset.range n).filter
              (fun j => 0 ≤ upd st.1 i (max (st.1 p.1) (st.1 p.2) + 1) j)
            = insert i ((Finset.range n).filter (fun j => 0 ≤ st.1 j)) := by
          ext j
          simp only [Finset.mem_filter, Finset.mem_insert, Finset.mem_range]
          by_cases hji : j = i
          · subst hji
            simp only [upd_same, true_or, iff_true]
            exact ⟨hi, by omega⟩
          · rw [upd_ne _ _ _ hji]; tauto
        rw [hset, Finset.card_insert_of_not_mem (by simp [Finset.mem_filter]; omega), h]
      · rw [if_neg h2]; exact h
  · simp only [h1, if_false]; exact h

theorem genPassStep_mono (fam : Nat → Option (Nat × Nat))
    (st : (Nat → Int) × Nat) (i : Nat) : st.2 ≤ (genPassStep fam st i).2 := by
  unfold genPassStep
  by_cases h1 : st.1 i < 0
  · simp only [h1, if_true]
    cases hf : fam i <;> simp only <;> split <;> omega
  · simp [h1]

theorem genPass_inv (n : Nat) (fam : Nat → Option (Nat × Nat))
    (st : (Nat → Int) × Nat) (h : GenInv fam st.1) (hc : GenCnt n st) :
    GenInv fam (genPass n fam st).1 ∧ GenCnt n (genPass n fam st) := by
  unfold genPass
  refine foldl_inv (genPassStep fam)
    (fun s => GenInv fam s.1 ∧ GenCnt n s) _ ?_ st ⟨h, hc⟩
  intro b a ha hb
  exact ⟨genPassStep_inv fam b a hb.1,
    genPassStep_cnt n fam b a (List.mem_range.mp ha) hb.2⟩

theorem genPass_mono (n : Nat) (fam : Nat → Option (Nat × Nat))
    (st : (Nat → Int) × Nat) : st.2 ≤ (genPass n fam st).2 := by
  unfold genPass
  have : ∀ (l : List Nat) (b : (Nat → Int) × Nat),
      b.2 ≤ (l.foldl (genPassStep fam) b).2 := by
    intro l
    induction l with
    | nil => intro b; exact le_refl _
    | cons x xs ih =>
      intro b
      exact le_trans (genPassStep_mono fam b x) (ih (genPassStep fam b x))
  exact this _ st

/-- With fuel exceeding `n - genfnd`, the loop always reaches a verdict. -/
theorem genLoop_total (n : Nat) (fam : Nat → Option (Nat × Nat)) :
    ∀ fuel st, n ≤ st.2 + fuel → genLoop n fam (fuel + 1) st ≠ none := by
  intro fuel
  induction fuel with
  | zero =>
    intro st h
    unfold genLoop
    have hlt : ¬ st.2 < n := by omega
    simp [hlt]
  | succ k ih =>
    intro st h
    unfold genLoop
    by_cases hlt : st.2 < n
    · simp only [hlt, if_true]
      by_cases heq : (genPass n fam st).2 = st.2
      · simp [heq]
      · simp only [heq, if_false]
        apply ih
        have := genPass_mono n fam st
        omega
    · simp [hlt]

theorem genLoop_ok (n : Nat) (fam : Nat → Option (Nat × Nat)) :
    ∀ fuel st st', GenInv fam st.1 → GenCnt n st →
      genLoop n fam fuel st = some (.ok st') →
      GenInv fam st'.1 ∧ GenCnt n st' ∧ n ≤ st'.2 := by
  intro fuel
  induction fuel with
  | zero => intro st st' _ _ h; simp [genLoop] at h
  | succ k ih =>
    intro st st' hInv hCnt h
    unfold genLoop at h
    by_cases hlt : st.2 < n
    · simp only [hlt, if_true] at h
      by_cases heq : (genPass n fam st).2 = st.2
      · simp [heq] at h
      · simp only [heq, if_false] at h
        obtain ⟨hI, hC⟩ := genPass_inv n fam st hInv hCnt
        exact ih _ st' hI hC h
    · simp only [hlt, if_false] at h
      injection h with h; injection h with h
      subst h
      exact ⟨hInv, hCnt, by omega⟩

theorem genLoop_err_msg (n : Nat) (fam : Nat → Option (Nat × Nat)) :
    ∀ fuel st e, genLoop n fam fuel st = some (.error e) →
      e = "pedigree error detected while assigning generation numbers" := by
  intro fuel
  induction fuel with
  | zero => intro st e h; simp [genLoop] at h
  | succ k ih =>
    intro st e h
    unfold genLoop at h
    by_cases hlt : st.2 < n
    · simp only [hlt, if_true] at h
      by_cases heq : (genPass n fam st).2 = st.2
      · simp only [heq, if_true] at h
        injection h with h; injection h with h
        exact h.symm
      · simp only [heq, if_false] at h
        exact ih _ e h
    · simp [hlt] at h

theorem genInit_inv (fam : Nat → Option (Nat × Nat)) : GenInv fam (genInit fam) := by
  constructor
  · intro i hi; simp [genInit, hi]
  · intro i p hp hge
    simp [genInit, hp] at hge

theorem genInit_cnt (n : Nat) (fam : Nat → Option (Nat × Nat)) :
    GenCnt n (genInit fam, numFou n fam) := by
  unfold GenCnt numFou
  simp only
  congr 1
  apply Finset.filter_congr
  intro i _
  cases hf : fam i <;> simp [genInit, hf]

/-- **C2.** After the generation loop terminates successfully, every founder
(individual with no family) has generation 0 and every non-founder has
generation exactly `max(father.gen, mother.gen) + 1`; and whenever a full
pass assigns no new generation (`genfnd` unchanged) while some individual
remains unassigned (`genfnd < NumInd`), the loop fails fatally with the
pedigree-error message. -/
theorem generation_assignment_correct (n : Nat) (fam : Nat → Option (Nat × Nat)) :
    (∀ g c, genRun n fam = some (.ok (g, c)) →
      (∀ i, fam i = none → g i = 0) ∧
      (∀ i, i < n → ∀ p, fam i = some p → g i = max (g p.1) (g p.2) + 1)) ∧
    (∀ fuel st, st.2 < n → (genPass n fam st).2 = st.2 →
      genLoop n fam (fuel + 1) st =
        some (.error "pedigree error detected while assigning generation numbers")) := by
  constructor
  · intro g c h
    obtain ⟨hInv, hCnt, hge⟩ :=
      genLoop_ok n fam (n + 1) (genInit fam, numFou n fam) (g, c)
        (genInit_inv fam) (genInit_cnt n fam) h
    have hall : ∀ i, i < n → 0 ≤ g i := by
      intro i hi
      unfold GenCnt at hCnt
      simp only at hCnt
      have hsub : (Finset.range n).filter (fun j => 0 ≤ g j) ⊆ Finset.range n :=
        Finset.filter_subset _ _
      have hcard : (Finset.range n).card ≤
          ((Finset.range n).filter (fun j => 0 ≤ g j)).card := by
        rw [Finset.card_range, ← hCnt]; omega
      have heq := Finset.eq_of_subset_of_card_le hsub hcard
      have : i ∈ (Finset.range n).filter (fun j => 0 ≤ g j) := by
        rw [heq]; exact Finset.mem_range.mpr hi
      exact (Finset.mem_filter.mp this).2
    exact ⟨hInv.1, fun i hi p hp => (hInv.2 i p hp (hall i hi)).2.2⟩
  · intro fuel st hlt hfix
    unfold genLoop
    simp [hlt, hfix]

/-- Three individuals: 0 and 1 founders, 2 their child. -/
def famEx : Nat → Option (Nat × Nat) := fun i => if i = 2 then some (0, 1) else none

/-- A parental cycle: 0's parents are (1,1), 1's parents are (0,0). -/
def famCyc : Nat → Option (Nat × Nat) :=
  fun i => if i = 0 then some (1, 1) else if i = 1 then some (0, 0) else none

theorem generation_assignment_correct_witness :
    ∃ g c, genRun 3 famEx = some (.ok (g, c)) ∧ g 0 = 0 ∧
      g 2 = max (g 0) (g 1) + 1 ∧
      genLoop 2 famCyc 1 (genInit famCyc, numFou 2 famCyc) =
        some (.error "pedigree error detected while assigning generation numbers") := by
  obtain ⟨g, c, h⟩ : ∃ g c, genRun 3 famEx = some (.ok (g, c)) := ⟨_, _, rfl⟩
  refine ⟨g, c, h, ?_, ?_, ?_⟩
  · exact ((generation_assignment_correct 3 famEx).1 g c h).1 0 rfl
  · exact ((generation_assignment_correct 3 famEx).1 g c h).2 2 (by omega) (0, 1) rfl
  · exact (generation_assignment_correct 2 famCyc).2 0 _ (by decide) (by decide)

/-! ## Claim C7: parent-field validation during ingestion -/

/-- **C7.** A parent id counts as unknown exactly when every character is
blank, tab or `'0'`; a record with both parents unknown logs no parent
error; a record with at least one known parent logs an error exactly when
only one parent is known, the father or mother id equals the own id, or the
father id equals the mother id; and after the full pass ingestion fails
fatally (naming the error log) iff any error was recorded. -/
theorem ingestion_validation_correct :
    (∀ s : List Char, unknown s = true ↔ ∀ c ∈ s, c = ' ' ∨ c = '\t' ∨ c = '0') ∧
    (∀ id fa mo : List Char, unknown fa = true → unknown mo = true →
      recordParentErrors id fa mo = 0) ∧
    (∀ id fa mo : List Char, ¬(unknown fa = true ∧ unknown mo = true) →
      (0 < recordParentErrors id fa mo ↔
        ((unknown fa = true ∨ unknown mo = true) ∨ id = fa ∨ id = mo ∨ fa = mo))) ∧
    (∀ recs otherErrs,
      getPedDataResult recs otherErrs =
          .error "data errors found. See file \"ibdprep.err\"." ↔
        pedDataErrCnt recs otherErrs ≠ 0) := by
  refine ⟨?_, ?_, ?_, ?_⟩
  · intro s
    induction s with
    | nil => simp [unknown]
    | cons c rest ih =>
      unfold unknown
      by_cases hc : c ≠ ' ' ∧ c ≠ '\t' ∧ c ≠ '0'
      · rw [if_pos hc]
        simp only [Bool.false_eq_true, false_iff, not_forall]
        exact ⟨c, List.mem_cons_self _ _, by tauto⟩
      · rw [if_neg hc, ih]
        constructor
        · intro h c' hc'
          rcases List.mem_cons.mp hc' with he | hm
          · subst he; tauto
          · exact h c' hm
        · intro h c' hc'
          exact h c' (List.mem_cons_of_mem _ hc')
  · intro id fa mo hfa hmo
    unfold recordParentErrors
    rw [if_neg (by simp [hfa, hmo])]
  · intro id fa mo hk
    unfold recordParentErrors
    rw [if_pos (by tauto)]
    constructor
    · intro h
      by_contra hno
      push_neg at hno
      obtain ⟨h1, h2, h3, h4⟩ := hno
      rw [if_neg (by tauto), if_neg h2, if_neg h3, if_neg h4] at h
      omega
    · intro h
      rcases h with h | h | h | h
      · rw [if_pos h]; omega
      · rw [if_pos h]
        split <;> omega
      · rw [if_pos h]
        split <;> split <;> omega
      · rw [if_pos h]
        split <;> split <;> split <;> omega
  · intro recs otherErrs
    unfold getPedDataResult
    constructor
    · intro h
      intro hz
      rw [if_neg (by omega)] at h
      cases h
    · intro h
      rw [if_pos h]

theorem ingestion_validation_correct_witness :
    unknown [' ', '0', '\t'] = true ∧
    ¬(unknown ['B'] = true ∧ unknown ['0'] = true) ∧
    (0 < recordParentErrors ['A'] ['B'] ['0'] ↔
      ((unknown ['B'] = true ∨ unknown ['0'] = true) ∨ (['A'] : List Char) = ['B'] ∨
        (['A'] : List Char) = ['0'] ∨ (['B'] : List Char) = ['0'])) ∧
    (getPedDataResult [⟨['A'], ['B'], ['0']⟩] 0 =
        .error "data errors found. See file \"ibdprep.err\"." ↔
      pedDataErrCnt [⟨['A'], ['B'], ['0']⟩] 0 ≠ 0) := by
  refine ⟨?_, by decide, ?_, ?_⟩
  · exact (ingestion_validation_correct.1 [' ', '0', '\t']).mpr (by decide)
  · exact ingestion_validation_correct.2.2.1 ['A'] ['B'] ['0'] (by decide)
  · exact ingestion_validation_correct.2.2.2 [⟨['A'], ['B'], ['0']⟩] 0

/-! # Generic sort (`qSort`, ibdprep.c:3072-3132), claim C9

`qSort` is an explicit-stack quicksort over an index permutation `ord`.
Keys are compared with `strcmp` (byte-lexicographic) or, in numeric mode,
by `atoi` of the key.  The embedding keeps the exact loop structure:
an outer stack loop, a middle partition loop and an inner scan/swap loop.
Index variables `i, j, l, h` are C `int`s and may leave the array bounds;
any out-of-bounds access, stack overflow (`STKSIZE`) or fuel exhaustion
yields `none`. -/

/-- `strcmp(a,b) < 0` over NUL-free byte strings. -/
def strcmpLt : List Char → List Char → Bool
  | [], [] => false
  | [], _ :: _ => true
  | _ :: _, [] => false
  | a :: as, b :: bs =>
    if a.toNat < b.toNat then true
    else if b.toNat < a.toNat then false
    else strcmpLt as bs

/-- C `isspace` characters skipped by `atoi`. -/
def isSpaceC (c : Char) : Bool :=
  c = ' ' || c = '\t' || c = '\n' || c = Char.ofNat 11 || c = Char.ofNat 12 || c = '\r'

/-- Digit-folding part of `atoi`. -/
def atoiDigits : List Char → Int → Int
  | [], acc => acc
  | c :: r, acc =>
    if c.isDigit then atoiDigits r (10 * acc + (c.toNat - '0'.toNat : Nat)) else acc

/-- `atoi`: skip leading whitespace, optional sign, leading digits. -/
def atoi (s : List Char) : Int :=
  match s.dropWhile isSpaceC with
  | '-' :: r => - atoiDigits r 0
  | '+' :: r => atoiDigits r 0
  | s1 => atoiDigits s1 0

/-- The key order used by `qSort` in the two comparison modes. -/
def keyLt (numeric : Bool) (a b : List Char) : Bool :=
  if numeric then decide (atoi a < atoi b) else strcmpLt a b

/-- Read `ord[i]` for a C `int` index `i` (none = out of bounds). -/
def ordGet (ord : List Nat) (i : Int) : Option Nat :=
  if h : 0 ≤ i ∧ i.toNat < ord.length then some (ord.get ⟨i.toNat, h.2⟩) else none

/-- The key at partition position `i`: `vals[ord[i]]`. -/
def keyAt (vals : List (List Char)) (ord : List Nat) (i : Int) : Option (List Char) :=
  (ordGet ord i).bind vals.get?

/-- `while (key(vals[ord[i]]) < key(mid)) i++` (ibdprep.c:3105/3110). -/
def scanUp (vals : List (List Char)) (numeric : Bool) (mid : List Char)
    (ord : List Nat) : Nat → Int → Option Int
  | 0, _ => none
  | fuel + 1, i =>
    match keyAt vals ord i with
    | none => none
    | some s =>
      if keyLt numeric s mid then scanUp vals numeric mid ord fuel (i + 1) else some i

/-- `while (key(mid) < key(vals[ord[j]])) j--` (ibdprep.c:3106/3111). -/
def scanDown (vals : List (List Char)) (numeric : Bool) (mid : List Char)
    (ord : List Nat) : Nat → Int → Option Int
  | 0, _ => none
  | fuel + 1, j =>
    match keyAt vals ord j with
    | none => none
    | some s =>
      if keyLt numeric mid s then scanDown vals numeric mid ord fuel (j - 1) else some j

/-- The swap `ip = ord[i]; ord[i] = ord[j]; ord[j] = ip` (ibdprep.c:3113-3115). -/
def swapOrd (ord : List Nat) (i j : Int) : Option (List Nat) :=
  match ordGet ord i, ordGet ord j with
  | some oi, some oj => some ((ord.set i.toNat oj).set j.toNat oi)
  | _, _ => none

/-- The inner `do { scans; if (i <= j) swap } while (i <= j)` loop
(ibdprep.c:3103-3119); returns the final `(ord, i, j)`. -/
def innerLoop (vals : List (List Char)) (numeric : Bool) (mid : List Char) :
    Nat → List Nat → Int → Int → Option (List Nat × Int × Int)
  | 0, _, _, _ => none
  | fuel + 1, ord, i, j =>
    match scanUp vals numeric mid ord (ord.length + 1) i with
    | none => none
    | some i' =>
      match scanDown vals numeric mid ord (ord.length + 1) j with
      | none => none
      | some j' =>
        if i' ≤ j' then
          match swapOrd ord i' j' with
          | none => none
          | some ord' =>
            if i' + 1 ≤ j' - 1 then
              innerLoop vals numeric mid fuel ord' (i' + 1) (j' - 1)
            else some (ord', i' + 1, j' - 1)
        else some (ord, i', j')

/-- The middle `do { ... } while (l < h)` partition loop
(ibdprep.c:3100-3130): pivot `mid = vals[ord[(i+j)/2+1]]` (value copy),
inner loop, conditional push of `(i, h)` with the `STKSIZE` overflow check,
then `h = j`. -/
def midLoop (vals : List (List Char)) (numeric : Bool) :
    Nat → List Nat → Int → Int → List (Int × Int) →
      Option (List Nat × List (Int × Int))
  | 0, _, _, _, _ => none
  | fuel + 1, ord, l, h, stk =>
    match keyAt vals ord (Int.tdiv (l + h) 2 + 1) with
    | none => none
    | some mid =>
      match innerLoop vals numeric mid (ord.length + 1) ord l h with
      | none => none
      | some (ord', i, j) =>
        let stk' := if i < h then (i, h) :: stk else stk
        if 1001 ≤ stk'.length then none
        else if l < j then midLoop vals numeric fuel ord' l j stk'
        else some (ord', stk')

/-- The outer stack loop (ibdprep.c:3098-3131). -/
def outerLoop (vals : List (List Char)) (numeric : Bool) :
    Nat → List Nat → List (Int × Int) → Option (List Nat)
  | 0, _, _ => none
  | fuel + 1, ord, stk =>
    match stk with
    | [] => some ord
    | (l, h) :: rest =>
      match midLoop vals numeric (fuel + 1) ord l h rest with
      | none => none
      | some (ord', stk') => outerLoop vals numeric fuel ord' stk'

/-- `qSort` (ibdprep.c:3072-3132).  `ord0` models the caller's `ord` array
contents, which are returned untouched on the `!nvals || !vlen` early exit;
otherwise `ord` is initialized to the identity permutation of `0..nvals-1`
before sorting. -/
def qSortRun (vals : List (List Char)) (vlen nvals : Nat) (ord0 : List Nat)
    (numeric : Bool) (fuel : Nat) : Option (List Nat) :=
  if nvals = 0 ∨ vlen = 0 then some ord0
  else if nvals = 1 then some (List.range nvals)
  else outerLoop vals numeric fuel (List.range nvals) [((0 : Int), (nvals : Int) - 1)]

/-- Stability in the sense of claim C9: equal-key elements appear in `ord`
in their original input order. -/
def StableOn (vals : List (List Char)) (numeric : Bool) (ord : List Nat) : Prop :=
  ∀ p q, p < ord.length → q < ord.length → p < q →
    keyLt numeric (vals.getD (ord.getD p 0) []) (vals.getD (ord.getD q 0) []) = false →
    keyLt numeric (vals.getD (ord.getD q 0) []) (vals.getD (ord.getD p 0) []) = false →
    ord.getD p 0 < ord.getD q 0

/-! ## Permutation invariant of `qSort` -/

theorem set_set_swap_perm (l : List Nat) (a b : Nat) (ha : a < l.length)
    (hb : b < l.length) : ((l.set a l[b]).set b l[a]).Perm l := by
  rw [List.perm_iff_count]
  intro x
  have hb1 : b < (l.set a l[b]).length := by rw [List.length_set]; exact hb
  rw [List.count_set l[a] x (l.set a l[b]) b hb1, List.count_set l[b] x l a ha]
  have hgb : (l.set a l[b])[b] = l[b] := by
    rw [List.getElem_set]
    split <;> rfl
  rw [hgb]
  have hma : l[a] ∈ l := List.getElem_mem ha
  have hmb : l[b] ∈ l := List.getElem_mem hb
  by_cases e1 : l[a] = x <;> by_cases e2 : l[b] = x <;>
    simp only [e1, e2, beq_iff_eq, eq_self_iff_true, if_true, if_false]
  · have hc : 0 < List.count x l := List.count_pos_iff.mpr (e1 ▸ hma)
    omega
  · have hc : 0 < List.count x l := List.count_pos_iff.mpr (e1 ▸ hma)
    omega
  · have hc : 0 < List.count x l := List.count_pos_iff.mpr (e2 ▸ hmb)
    omega
  · omega

theorem swapOrd_perm (ord : List Nat) (i j : Int) (ord' : List Nat)
    (h : swapOrd ord i j = some ord') : ord'.Perm ord := by
  unfold swapOrd ordGet at h
  by_cases hbi : 0 ≤ i ∧ i.toNat < ord.length
  · rw [dif_pos hbi] at h
    by_cases hbj : 0 ≤ j ∧ j.toNat < ord.length
    · rw [dif_pos hbj] at h
      simp only at h
      injection h with h
      subst h
      have := set_set_swap_perm ord i.toNat j.toNat hbi.2 hbj.2
      simpa [List.get_eq_getElem] using this
    · rw [dif_neg hbj] at h; cases h
  · rw [dif_neg hbi] at h; cases h

theorem innerLoop_perm (vals : List (List Char)) (numeric : Bool) (mid : List Char) :
    ∀ fuel ord i j ord' i' j',
      innerLoop vals numeric mid fuel ord i j = some (ord', i', j') →
      ord'.Perm ord := by
  intro fuel
  induction fuel with
  | zero => intro ord i j ord' i' j' h; cases h
  | succ k ih =>
    intro ord i j ord' i' j' h
    unfold innerLoop at h
    cases hu : scanUp vals numeric mid ord (ord.length + 1) i with
    | none => rw [hu] at h; simp only at h; cases h
    | some a =>
      rw [hu] at h
      simp only at h
      cases hd : scanDown vals numeric mid ord (ord.length + 1) j with
      | none => rw [hd] at h; simp only at h; cases h
      | some b =>
        rw [hd] at h
        simp only at h
        by_cases hab : a ≤ b
        · rw [if_pos hab] at h
          cases hs : swapOrd ord a b with
          | none => rw [hs] at h; simp only at h; cases h
          | some ord₁ =>
            rw [hs] at h
            simp only at h
            by_cases hc : a + 1 ≤ b - 1
            · rw [if_pos hc] at h
              exact (ih ord₁ (a + 1) (b - 1) ord' i' j' h).trans (swapOrd_perm ord a b ord₁ hs)
            · rw [if_neg hc] at h
              injection h with h
              cases h
              exact swapOrd_perm ord a b _ hs
        · rw [if_neg hab] at h
          injection h with h
          cases h
          exact List.Perm.refl _

theorem midLoop_perm (vals : List (List Char)) (numeric : Bool) :
    ∀ fuel ord l h stk ord' stk',
      midLoop vals numeric fuel ord l h stk = some (ord', stk') →
      ord'.Perm ord := by
  intro fuel
  induction fuel with
  | zero => intro ord l h stk ord' stk' hm; cases hm
  | succ k ih =>
    intro ord l h stk ord' stk' hm
    unfold midLoop at hm
    cases hk : keyAt vals ord (Int.tdiv (l + h) 2 + 1) with
    | none => rw [hk] at hm; simp only at hm; cases hm
    | some mid =>
      rw [hk] at hm
      simp only at hm
      cases hi : innerLoop vals numeric mid (ord.length + 1) ord l h with
      | none => rw [hi] at hm; simp only at hm; cases hm
      | some r =>
        obtain ⟨ord₁, i, j⟩ := r
        rw [hi] at hm
        simp only at hm
        by_cases hstk : 1001 ≤ (if i < h then (i, h) :: stk else stk).length
        · rw [if_pos hstk] at hm; cases hm
        · rw [if_neg hstk] at hm
          by_cases hlj : l < j
          · rw [if_pos hlj] at hm
            exact (ih _ _ _ _ _ _ hm).trans
              (innerLoop_perm vals numeric mid _ ord l h ord₁ i j hi)
          · rw [if_neg hlj] at hm
            injection hm with hm
            cases hm
            exact innerLoop_perm vals numeric mid _ ord l h _ i j hi

theorem outerLoop_perm (vals : List (List Char)) (numeric : Bool) :
    ∀ fuel ord stk ord',
      outerLoop vals numeric fuel ord stk = some ord' → ord'.Perm ord := by
  intro fuel
  induction fuel with
  | zero => intro ord stk ord' h; cases h
  | succ k ih =>
    intro ord stk ord' h
    unfold outerLoop at h
    cases stk with
    | nil =>
      injection h with h
      cases h
      exact List.Perm.refl _
    | cons top rest =>
      obtain ⟨l, hh⟩ := top
      simp only at h
      cases hm : midLoop vals numeric (k + 1) ord l hh rest with
      | none => rw [hm] at h; simp only at h; cases h
      | some r =>
        obtain ⟨ord₁, stk₁⟩ := r
        rw [hm] at h
        simp only at h
        exact (ih ord₁ stk₁ ord' h).trans (midLoop_perm vals numeric _ ord l hh rest ord₁ stk₁ hm)

/-- **C9 (amended).** On every completed run with `nvals ≥ 1` and
`vlen ≥ 1`, `qSort` produces a permutation of `0..nvals-1` ordered by the
selected comparison mode's partitioning — but it is **not** stable
(see `qSort_stability_cex`): equal-key elements may leave their input
order. -/
theorem qSort_produces_permutation (vals : List (List Char)) (vlen nvals : Nat)
    (ord0 : List Nat) (numeric : Bool) (fuel : Nat) (ord : List Nat)
    (hn : 1 ≤ nvals) (hv : 1 ≤ vlen)
    (h : qSortRun vals vlen nvals ord0 numeric fuel = some ord) :
    ord.Perm (List.range nvals) := by
  unfold qSortRun at h
  rw [if_neg (by omega)] at h
  by_cases h1 : nvals = 1
  · rw [if_pos h1] at h
    injection h with h
    cases h
    exact List.Perm.refl _
  · rw [if_neg h1] at h
    exact outerLoop_perm vals numeric fuel (List.range nvals) _ ord h

/-- **C9 counterexample.** On the two-record input with identical keys
`"a", "a"`, byte-lexicographic mode, `qSort` returns `ord = [1, 0]`:
the equal-key elements are emitted in reversed input order, refuting
stability as claimed. -/
theorem qSort_stability_cex :
    qSortRun [['a'], ['a']] 1 2 [] false 4 = some [1, 0] ∧
    ¬ StableOn [['a'], ['a']] false [1, 0] := by
  constructor
  · rfl
  · intro hs
    have := hs 0 1 (by decide) (by decide) (by decide) (by decide) (by decide)
    simp at this

theorem qSort_produces_permutation_witness :
    qSortRun [['a'], ['a']] 1 2 [] false 4 = some [1, 0] ∧
    ([1, 0] : List Nat).Perm (List.range 2) := by
  refine ⟨rfl, ?_⟩
  exact qSort_produces_permutation [['a'], ['a']] 1 2 [] false 4 [1, 0]
    (by decide) (by decide) rfl

/-! # Loop analyzer (`checkLooping`, `makeLinks`, `findBreaks`, `addLink`,
`rmLink`, ibdprep.c:1826-2073), claims C3, C4, C10

Model of one pedigree: `fams : List LFam` in `fam1`-chain order; a family's
`seq` is its position in the list.  A parent is described by its `IndSort`
rank (`seq`, the index into `linkInd`) and the `seq` of the family it
belongs to as a child (`famSeq`, `None` when it is a founder).  C pointer
comparisons between `Ind*` are modelled by equality of the unique `seq`
ranks.  A link record `(ind, fam)` is a `struct Link`. -/

structure LPar where
  seq : Nat
  famSeq : Option Nat
  deriving DecidableEq

structure LFam where
  fa : LPar
  mo : LPar
  nkid : Nat
  deriving DecidableEq

/-- `linkList` / `nlink` / `linkInd` (ibdprep.c:1830-1833), as total maps. -/
structure LinkSt where
  linkList : Nat → List (Nat × Nat)
  nlink : Nat → Nat
  linkInd : Nat → Nat

def emptyLinkSt : LinkSt := ⟨fun _ => [], fun _ => 0, fun _ => 0⟩

/-- `addLink` (ibdprep.c:2008-2037): append a `(ind, fam2)` record to
`linkList[fam1]`, bump `linkInd[ind]`, and bump `nlink[fam1]` only when no
record through `ind` was already present. -/
def addLink (s : LinkSt) (fam1 fam2 ind : Nat) : LinkSt :=
  let found := (s.linkList fam1).any (fun r => r.1 = ind)
  { linkList := upd s.linkList fam1 (s.linkList fam1 ++ [(ind, fam2)]),
    nlink := if found then s.nlink else upd s.nlink fam1 (s.nlink fam1 + 1),
    linkInd := upd s.linkInd ind (s.linkInd ind + 1) }

/-- Remove the first element satisfying `p`, returning it and the rest. -/
def removeFirst {α : Type} (p : α → Bool) : List α → Option (α × List α)
  | [] => none
  | x :: xs =>
    if p x then some (x, xs)
    else match removeFirst p xs with
      | none => none
      | some (y, ys) => some (y, x :: ys)

/-- `rmLink` (ibdprep.c:2039-2073): remove the first record of
`linkList[fam1]` pointing to `fam2`; decrement `linkInd` of its connecting
individual; decrement `nlink[fam1]` only when no other record through that
individual remains (and null the list when `nlink` reaches 0). -/
def rmLink (s : LinkSt) (fam1 fam2 : Nat) : LinkSt :=
  if s.nlink fam1 = 0 then s
  else
    match removeFirst (fun r => r.2 = fam2) (s.linkList fam1) with
    | none => s
    | some (x, rest) =>
      let li2 := upd s.linkInd x.1 (s.linkInd x.1 - 1)
      if rest.any (fun r => r.1 = x.1) then
        { linkList := upd s.linkList fam1 rest, nlink := s.nlink, linkInd := li2 }
      else
        let nl := s.nlink fam1 - 1
        { linkList := if nl = 0 then upd (upd s.linkList fam1 rest) fam1 []
                      else upd s.linkList fam1 rest,
          nlink := upd s.nlink fam1 nl,
          linkInd := li2 }

/-- The `if (famp->fa->fam) { addLink(..); addLink(..); }` block of
`makeLinks` (ibdprep.c:1912-1917 and 1918-1923), for one parent `p` of
family `k`: link `k` and the parental family of `p` in both directions. -/
def linkParent (s : LinkSt) (k : Nat) (p : LPar) : LinkSt :=
  match p.famSeq with
  | some pf => addLink (addLink s k pf p.seq) pf k p.seq
  | none => s

/-- The link-building phase of `makeLinks` (ibdprep.c:1908-1941): for
family `k`, link it (both directions) to the parental family of its father
and of its mother, and to every earlier family `k2 < k` sharing the same
father or the same mother. -/
def buildStep (fams : List LFam) (s : LinkSt) (k : Nat) : LinkSt :=
  let f := fams.getD k ⟨⟨0, none⟩, ⟨0, none⟩, 0⟩
  let s2 := linkParent (linkParent s k f.fa) k f.mo
  (List.range k).foldl (fun ss k2 =>
    let f2 := fams.getD k2 ⟨⟨0, none⟩, ⟨0, none⟩, 0⟩
    let ssa := if f2.fa.seq = f.fa.seq
      then addLink (addLink ss k k2 f2.fa.seq) k2 k f2.fa.seq else ss
    if f2.mo.seq = f.mo.seq
      then addLink (addLink ssa k k2 f2.mo.seq) k2 k f2.mo.seq else ssa) s2

def buildLinks (fams : List LFam) : LinkSt :=
  (List.range fams.length).foldl (buildStep fams) emptyLinkSt

/-- Pruning one degree-1 family `i` (ibdprep.c:1946-1959): remove links
to `i` from every family, then drop `i`'s own records (decrementing their
`linkInd` counts) and zero its entry. -/
def pruneFam (numFam : Nat) (s : LinkSt) (i : Nat) : LinkSt :=
  let s1 := (List.range numFam).foldl (fun ss j => rmLink ss j i) s
  { linkList := upd s1.linkList i [],
    nlink := upd s1.nlink i 0,
    linkInd := (s1.linkList i).foldl
      (fun li r0 => upd li r0.1 (li r0.1 - 1)) s1.linkInd }

/-- One pass of the `do { ... } while (!done)` pruning loop
(ibdprep.c:1943-1968); the Bool is the `done` flag. -/
def prunePass (numFam : Nat) (s : LinkSt) : LinkSt × Bool :=
  (List.range numFam).foldl
    (fun sb i => if sb.1.nlink i = 1 then (pruneFam numFam sb.1 i, false) else sb)
    (s, true)

def pruneLoop (numFam : Nat) : Nat → LinkSt → Option LinkSt
  | 0, _ => none
  | fuel + 1, s =>
    let r := prunePass numFam s
    if r.2 then some r.1 else pruneLoop numFam fuel r.1

/-- `makeLinks` (ibdprep.c:1893-1969): build the family-link multigraph,
then prune degree-1 families to a fixed point. -/
def makeLinksRun (fams : List LFam) (fuel : Nat) : Option LinkSt :=
  pruneLoop fams.length fuel (buildLinks fams)

/-- `findBreaks` (ibdprep.c:1971-2006).  `narcs` sums `nlink` over all
families, `nodes` counts families with `nlink != 0` plus individuals with
`linkInd != 0`.  When `narcs < nodes` the C variable `nlbrk` is read
uninitialized; `junk` stands for that indeterminate value.  The loop that
selects `lbrkId` does not affect the returned count and is omitted. -/
def findBreaks (numFam numInd : Nat) (s : LinkSt) (junk : Int) : Int :=
  let narcs : Nat := ∑ f ∈ Finset.range numFam, s.nlink f
  let nodes : Nat :=
    ((List.range numFam).filter (fun f => s.nlink f ≠ 0)).length +
    ((List.range numInd).filter (fun i => s.linkInd i ≠ 0)).length
  if (nodes : Int) ≤ (narcs : Int) then (narcs : Int) - (nodes : Int) + 1 else junk

/-- The per-pedigree body of `checkLooping` (ibdprep.c:1837-1860):
`narcs = Σ (nkid + 2)`; when `narcs < nind + nfam` the pedigree is
loop-free (`hasloops = FALSE`, 0 breakers); otherwise `hasloops = TRUE`
and the breaker count comes from `makeLinks` + `findBreaks`. -/
def checkPed (fams : List LFam) (nind numInd fuel : Nat) (junk : Int) :
    Option (Bool × Int) :=
  let narcs0 := (fams.map (fun f => f.nkid + 2)).sum
  if narcs0 < nind + fams.length then some (false, 0)
  else
    match makeLinksRun fams fuel with
    | none => none
    | some s => some (true, findBreaks fams.length numInd s junk)

/-! ## Structural counts of the residual graph (the claims' reading) -/

/-- Number of distinct connecting individuals in family `f`'s link list. -/
def distinctInds (s : LinkSt) (f : Nat) : Nat :=
  ((s.linkList f).map Prod.fst).toFinset.card

/-- Arcs of the residual graph: distinct connecting individuals summed per
family (what C10 asserts `Σ nlink` computes). -/
def resArcs (numFam : Nat) (s : LinkSt) : Nat :=
  ∑ f ∈ Finset.range numFam, distinctInds s f

/-- Families with surviving links plus individuals appearing in surviving
links (what C3 asserts `nodes` computes). -/
def resNodes (numFam numInd : Nat) (s : LinkSt) : Nat :=
  ((List.range numFam).filter (fun f => s.linkList f ≠ [])).length +
  ((List.range numInd).filter
    (fun i => (List.range numFam).any (fun f => (s.linkList f).any (fun r => r.1 = i)))).length

/-- Number of records through individual `i` over all families. -/
def cntInd (s : LinkSt) (numFam i : Nat) : Nat :=
  ∑ f ∈ Finset.range numFam, ((s.linkList f).filter (fun r => r.1 = i)).length

/-- The loop-analyzer bookkeeping invariant: `nlink` counts distinct
connecting individuals per family, `linkInd` counts records per individual,
and no records live outside the pedigree's family range. -/
def LSInv (numFam : Nat) (s : LinkSt) : Prop :=
  (∀ f, s.nlink f = distinctInds s f) ∧
  (∀ i, s.linkInd i = cntInd s numFam i) ∧
  (∀ f, numFam ≤ f → s.linkList f = [])

/-! ## Bookkeeping lemmas for the link structure -/

theorem sum_range_update_add (g g' : Nat → Nat) (k n d : Nat) (hk : k < n)
    (hne : ∀ x, x ≠ k → g' x = g x) (hd : g' k = g k + d) :
    ∑ f ∈ Finset.range n, g' f = (∑ f ∈ Finset.range n, g f) + d := by
  have hmem : k ∈ Finset.range n := Finset.mem_range.mpr hk
  rw [← Finset.sum_erase_add _ g' hmem, ← Finset.sum_erase_add _ g hmem]
  have : ∑ f ∈ (Finset.range n).erase k, g' f = ∑ f ∈ (Finset.range n).erase k, g f :=
    Finset.sum_congr rfl (fun x hx => hne x (Finset.ne_of_mem_erase hx))
  rw [this, hd]
  omega

theorem sum_range_update_sub (g g' : Nat → Nat) (k n d : Nat) (hk : k < n)
    (hne : ∀ x, x ≠ k → g' x = g x) (hd : g' k + d = g k) :
    (∑ f ∈ Finset.range n, g' f) + d = ∑ f ∈ Finset.range n, g f := by
  have hmem : k ∈ Finset.range n := Finset.mem_range.mpr hk
  rw [← Finset.sum_erase_add _ g' hmem, ← Finset.sum_erase_add _ g hmem]
  have : ∑ f ∈ (Finset.range n).erase k, g' f = ∑ f ∈ (Finset.range n).erase k, g f :=
    Finset.sum_congr rfl (fun x hx => hne x (Finset.ne_of_mem_erase hx))
  rw [this]
  omega

theorem removeFirst_spec {α : Type} (p : α → Bool) :
    ∀ (l : List α) x rest, removeFirst p l = some (x, rest) →
      p x = true ∧ ∃ l1 l2, l = l1 ++ x :: l2 ∧ rest = l1 ++ l2 := by
  intro l
  induction l with
  | nil => intro x rest h; cases h
  | cons a as ih =>
    intro x rest h
    unfold removeFirst at h
    by_cases hp : p a = true
    · rw [if_pos hp] at h
      injection h with h
      injection h with h1 h2
      subst h1; subst h2
      exact ⟨hp, [], as, rfl, rfl⟩
    · rw [if_neg hp] at h
      cases hr : removeFirst p as with
      | none => rw [hr] at h; simp only at h; cases h
      | some r =>
        obtain ⟨y, ys⟩ := r
        rw [hr] at h
        simp only at h
        injection h with h
        injection h with h1 h2
        subst h1; subst h2
        obtain ⟨hpy, l1, l2, he, hr2⟩ := ih y ys hr
        exact ⟨hpy, a :: l1, l2, by rw [he]; rfl, by rw [hr2]; rfl⟩

theorem filter_middle_length {α : Type} (p : α → Bool) (l1 l2 : List α) (x : α) :
    ((l1 ++ x :: l2).filter p).length =
      ((l1 ++ l2).filter p).length + (if p x then 1 else 0) := by
  simp only [List.filter_append, List.filter_cons, List.length_append]
  split <;> simp <;> omega

theorem toFinset_middle (l1 l2 : List Nat) (a : Nat) :
    (l1 ++ a :: l2).toFinset = insert a (l1 ++ l2).toFinset := by
  simp only [List.toFinset_append, List.toFinset_cons]
  ext x
  simp only [Finset.mem_union, Finset.mem_insert]
  tauto

/-- `addLink` preserves the bookkeeping invariant. -/
theorem addLink_inv (numFam : Nat) (s : LinkSt) (fam1 fam2 ind : Nat)
    (hf1 : fam1 < numFam) (h : LSInv numFam s) :
    LSInv numFam (addLink s fam1 fam2 ind) := by
  obtain ⟨h1, h2, h3⟩ := h
  unfold addLink
  by_cases hfound : (s.linkList fam1).any (fun r => r.1 = ind) = true
  · simp only [hfound, if_true]
    refine ⟨?_, ?_, ?_⟩
    · intro f
      dsimp only
      by_cases hf : f = fam1
      · subst hf
        unfold distinctInds
        dsimp only
        rw [upd_same]
        have hmem : ind ∈ ((s.linkList f).map Prod.fst).toFinset := by
          rw [List.mem_toFinset, List.mem_map]
          obtain ⟨r, hr, hre⟩ := List.any_eq_true.mp hfound
          exact ⟨r, hr, of_decide_eq_true hre⟩
        rw [List.map_append, List.map_cons]
        simp only [List.map_nil]
        rw [show ((s.linkList f).map Prod.fst ++ [ind] : List Nat)
          = (s.linkList f).map Prod.fst ++ ind :: [] from rfl]
        rw [toFinset_middle, List.append_nil]
        rw [Finset.insert_eq_self.mpr hmem]
        exact h1 f
      · unfold distinctInds
        dsimp only
        rw [upd_ne _ _ _ hf]
        exact h1 f
    · intro i
      dsimp only
      by_cases hi : i = ind
      · subst hi
        rw [upd_same, h2 i]
        unfold cntInd
        dsimp only
        refine (sum_range_update_add _ _ fam1 numFam 1 hf1 ?_ ?_).symm
        · intro x hx
          rw [upd_ne _ _ _ hx]
        · rw [upd_same, List.filter_append]
          simp
      · rw [upd_ne _ _ _ hi, h2 i]
        unfold cntInd
        dsimp only
        refine Finset.sum_congr rfl (fun f _ => ?_)
        by_cases hf : f = fam1
        · subst hf
          rw [upd_same, List.filter_append]
          have : List.filter (fun r => decide (r.1 = i)) [(ind, fam2)] = [] := by
            simp [Ne.symm hi]
          rw [this, List.append_nil]
        · rw [upd_ne _ _ _ hf]
    · intro f hf
      dsimp only
      have hne : f ≠ fam1 := by omega
      rw [upd_ne _ _ _ hne]
      exact h3 f hf
  · simp only [hfound, Bool.false_eq_true, if_false]
    refine ⟨?_, ?_, ?_⟩
    · intro f
      dsimp only
      by_cases hf : f = fam1
      · subst hf
        unfold distinctInds
        dsimp only
        rw [upd_same, upd_same]
        have hnm : ind ∉ ((s.linkList f).map Prod.fst).toFinset := by
          rw [List.mem_toFinset, List.mem_map]
          rintro ⟨r, hr, hre⟩
          exact hfound (List.any_eq_true.mpr ⟨r, hr, decide_eq_true hre⟩)
        rw [List.map_append, List.map_cons]
        simp only [List.map_nil]
        rw [show ((s.linkList f).map Prod.fst ++ [ind] : List Nat)
          = (s.linkList f).map Prod.fst ++ ind :: [] from rfl]
        rw [toFinset_middle, List.append_nil]
        rw [Finset.card_insert_of_not_mem hnm, h1 f]
        rfl
      · unfold distinctInds
        dsimp only
        rw [upd_ne _ _ _ hf, upd_ne _ _ _ hf]
        exact h1 f
    · intro i
      dsimp only
      by_cases hi : i = ind
      · subst hi
        rw [upd_same, h2 i]
        unfold cntInd
        dsimp only
        refine (sum_range_update_add _ _ fam1 numFam 1 hf1 ?_ ?_).symm
        · intro x hx
          rw [upd_ne _ _ _ hx]
        · rw [upd_same, List.filter_append]
          simp
      · rw [upd_ne _ _ _ hi, h2 i]
        unfold cntInd
        dsimp only
        refine Finset.sum_congr rfl (fun f _ => ?_)
        by_cases hf : f = fam1
        · subst hf
          rw [upd_same, List.filter_append]
          have : List.filter (fun r => decide (r.1 = i)) [(ind, fam2)] = [] := by
            simp [Ne.symm hi]
          rw [this, List.append_nil]
        · rw [upd_ne _ _ _ hf]
    · intro f hf
      dsimp only
      have hne : f ≠ fam1 := by omega
      rw [upd_ne _ _ _ hne]
      exact h3 f hf

theorem toFinset_orig (l1 l2 : List (Nat × Nat)) (x : Nat × Nat) :
    ((l1 ++ x :: l2).map Prod.fst).toFinset =
      insert x.1 (((l1 ++ l2).map Prod.fst).toFinset) := by
  rw [List.map_append, List.map_cons, toFinset_middle, ← List.map_append]

theorem upd_upd_same {α : Type} (f : Nat → α) (k : Nat) (a b : α) :
    upd (upd f k a) k b = upd f k b := by
  funext j
  unfold upd
  split <;> rfl

/-- `rmLink` preserves the bookkeeping invariant. -/
theorem rmLink_inv (numFam : Nat) (s : LinkSt) (fam1 fam2 : Nat)
    (hf1 : fam1 < numFam) (h : LSInv numFam s) :
    LSInv numFam (rmLink s fam1 fam2) := by
  obtain ⟨h1, h2, h3⟩ := h
  unfold rmLink
  by_cases hz : s.nlink fam1 = 0
  · rw [if_pos hz]; exact ⟨h1, h2, h3⟩
  · rw [if_neg hz]
    cases hrf : removeFirst (fun r => r.2 = fam2) (s.linkList fam1) with
    | none => exact ⟨h1, h2, h3⟩
    | some pr =>
      obtain ⟨x, rest⟩ := pr
      obtain ⟨hpx, l1, l2, hle, hre⟩ := removeFirst_spec _ _ x rest hrf
      have hTF : ((s.linkList fam1).map Prod.fst).toFinset =
          insert x.1 ((rest.map Prod.fst).toFinset) := by
        rw [hle, hre]; exact toFinset_orig l1 l2 x
      have hcnt : ∀ i, ((s.linkList fam1).filter (fun r => r.1 = i)).length =
          ((rest.filter (fun r => r.1 = i)).length) + (if x.1 = i then 1 else 0) := by
        intro i
        rw [hle, hre, filter_middle_length]
        congr 1
        by_cases hxi : x.1 = i <;> simp [hxi]
      simp only
      by_cases hany : rest.any (fun r => r.1 = x.1) = true
      · rw [if_pos hany]
        refine ⟨?_, ?_, ?_⟩
        · intro f
          dsimp only
          unfold distinctInds
          dsimp only
          by_cases hf : f = fam1
          · subst hf
            rw [upd_same, h1 f]
            unfold distinctInds
            rw [hTF]
            have hx1 : x.1 ∈ (rest.map Prod.fst).toFinset := by
              rw [List.mem_toFinset, List.mem_map]
              obtain ⟨r, hr, hrx⟩ := List.any_eq_true.mp hany
              exact ⟨r, hr, of_decide_eq_true hrx⟩
            rw [Finset.insert_eq_self.mpr hx1]
          · rw [upd_ne _ _ _ hf]
            exact h1 f
        · intro i
          dsimp only
          by_cases hi : i = x.1
          · rw [hi, upd_same, h2 x.1]
            unfold cntInd
            dsimp only
            have hsub := sum_range_update_sub
              (fun f => ((s.linkList f).filter (fun r => r.1 = x.1)).length)
              (fun f => (((upd s.linkList fam1 rest) f).filter (fun r => r.1 = x.1)).length)
              fam1 numFam 1 hf1
              (fun y hy => by dsimp only; rw [upd_ne _ _ _ hy])
              (by dsimp only; rw [upd_same, hcnt x.1, if_pos rfl])
            dsimp only at hsub
            omega
          · rw [upd_ne _ _ _ hi, h2 i]
            unfold cntInd
            dsimp only
            refine Finset.sum_congr rfl (fun f _ => ?_)
            by_cases hf : f = fam1
            · subst hf
              rw [upd_same, hcnt i, if_neg (fun he => hi he.symm)]
              omega
            · rw [upd_ne _ _ _ hf]
        · intro f hf
          dsimp only
          rw [upd_ne _ _ _ (by omega : f ≠ fam1)]
          exact h3 f hf
      · rw [if_neg hany]
        have hx1nm : x.1 ∉ (rest.map Prod.fst).toFinset := by
          rw [List.mem_toFinset, List.mem_map]
          rintro ⟨r, hr, hrx⟩
          exact hany (List.any_eq_true.mpr ⟨r, hr, decide_eq_true hrx⟩)
        have hnl : s.nlink fam1 = (rest.map Prod.fst).toFinset.card + 1 := by
          rw [h1 fam1]
          unfold distinctInds
          rw [hTF, Finset.card_insert_of_not_mem hx1nm]
        by_cases hnl0 : s.nlink fam1 - 1 = 0
        · have hrest : rest = [] := by
            have hcard : (rest.map Prod.fst).toFinset.card = 0 := by omega
            rw [Finset.card_eq_zero, List.toFinset_eq_empty_iff] at hcard
            cases hr2 : rest with
            | nil => rfl
            | cons y ys => rw [hr2] at hcard; cases hcard
          rw [if_pos hnl0]
          subst hrest
          rw [upd_upd_same]
          refine ⟨?_, ?_, ?_⟩
          · intro f
            dsimp only
            unfold distinctInds
            dsimp only
            by_cases hf : f = fam1
            · subst hf
              rw [upd_same, upd_same]
              simp only [List.map_nil, List.toFinset_nil, Finset.card_empty]
              omega
            · rw [upd_ne _ _ _ hf, upd_ne _ _ _ hf]
              exact h1 f
          · intro i
            dsimp only
            by_cases hi : i = x.1
            · rw [hi, upd_same, h2 x.1]
              unfold cntInd
              dsimp only
              have hsub := sum_range_update_sub
                (fun f => ((s.linkList f).filter (fun r => r.1 = x.1)).length)
                (fun f => (((upd s.linkList fam1 ([] : List (Nat × Nat))) f).filter
                  (fun r => r.1 = x.1)).length)
                fam1 numFam 1 hf1
                (fun y hy => by dsimp only; rw [upd_ne _ _ _ hy])
                (by dsimp only; rw [upd_same, hcnt x.1, if_pos rfl])
              dsimp only at hsub
              omega
            · rw [upd_ne _ _ _ hi, h2 i]
              unfold cntInd
              dsimp only
              refine Finset.sum_congr rfl (fun f _ => ?_)
              by_cases hf : f = fam1
              · subst hf
                rw [upd_same, hcnt i, if_neg (fun he => hi he.symm)]
                simp
              · rw [upd_ne _ _ _ hf]
          · intro f hf
            dsimp only
            rw [upd_ne _ _ _ (by omega : f ≠ fam1)]
            exact h3 f hf
        · rw [if_neg hnl0]
          refine ⟨?_, ?_, ?_⟩
          · intro f
            dsimp only
            unfold distinctInds
            dsimp only
            by_cases hf : f = fam1
            · subst hf
              rw [upd_same, upd_same]
              omega
            · rw [upd_ne _ _ _ hf, upd_ne _ _ _ hf]
              exact h1 f
          · intro i
            dsimp only
            by_cases hi : i = x.1
            · rw [hi, upd_same, h2 x.1]
              unfold cntInd
              dsimp only
              have hsub := sum_range_update_sub
                (fun f => ((s.linkList f).filter (fun r => r.1 = x.1)).length)
                (fun f => (((upd s.linkList fam1 rest) f).filter (fun r => r.1 = x.1)).length)
                fam1 numFam 1 hf1
                (fun y hy => by dsimp only; rw [upd_ne _ _ _ hy])
                (by dsimp only; rw [upd_same, hcnt x.1, if_pos rfl])
              dsimp only at hsub
              omega
            · rw [upd_ne _ _ _ hi, h2 i]
              unfold cntInd
              dsimp only
              refine Finset.sum_congr rfl (fun f _ => ?_)
              by_cases hf : f = fam1
              · subst hf
                rw [upd_same, hcnt i, if_neg (fun he => hi he.symm)]
                omega
              · rw [upd_ne _ _ _ hf]
          · intro f hf
            dsimp only
            rw [upd_ne _ _ _ (by omega : f ≠ fam1)]
            exact h3 f hf

/-- Folding the `linkInd` decrements over a record list subtracts, for each
individual, the number of records through it. -/
theorem decFold (recs : List (Nat × Nat)) :
    ∀ (li : Nat → Nat) x,
      (recs.foldl (fun li r0 => upd li r0.1 (li r0.1 - 1)) li) x =
        li x - ((recs.filter (fun r => r.1 = x)).length) := by
  induction recs with
  | nil => intro li x; simp
  | cons r rs ih =>
    intro li x
    simp only [List.foldl_cons, List.filter_cons]
    rw [ih]
    by_cases hr : r.1 = x
    · rw [if_pos (by simpa using hr), hr, upd_same]
      simp only [List.length_cons]
      omega
    · rw [if_neg (by simpa using hr), upd_ne _ _ _ (fun he => hr he.symm)]

/-- `pruneFam` preserves the bookkeeping invariant. -/
theorem pruneFam_inv (numFam : Nat) (s : LinkSt) (i : Nat) (hi : i < numFam)
    (h : LSInv numFam s) : LSInv numFam (pruneFam numFam s i) := by
  unfold pruneFam
  have hs1 : LSInv numFam ((List.range numFam).foldl (fun ss j => rmLink ss j i) s) := by
    refine foldl_inv _ (LSInv numFam) _ ?_ s h
    intro b a ha hb
    exact rmLink_inv numFam b a i (List.mem_range.mp ha) hb
  set s1 := (List.range numFam).foldl (fun ss j => rmLink ss j i) s with hs1d
  obtain ⟨h1, h2, h3⟩ := hs1
  refine ⟨?_, ?_, ?_⟩
  · intro f
    dsimp only
    by_cases hf : f = i
    · subst hf
      rw [upd_same]
      unfold distinctInds
      dsimp only
      rw [upd_same]
      simp
    · rw [upd_ne _ _ _ hf]
      unfold distinctInds
      dsimp only
      rw [upd_ne _ _ _ hf]
      exact h1 f
  · intro x
    dsimp only
    rw [decFold, h2 x]
    unfold cntInd
    dsimp only
    have hsub := sum_range_update_sub
      (fun f => ((s1.linkList f).filter (fun r => r.1 = x)).length)
      (fun f => (((upd s1.linkList i ([] : List (Nat × Nat))) f).filter
        (fun r => r.1 = x)).length)
      i numFam (((s1.linkList i).filter (fun r => r.1 = x)).length) hi
      (fun y hy => by dsimp only; rw [upd_ne _ _ _ hy])
      (by dsimp only; rw [upd_same]; simp)
    dsimp only at hsub
    omega
  · intro f hf
    dsimp only
    by_cases hfi : f = i
    · subst hfi; rw [upd_same]
    · rw [upd_ne _ _ _ hfi]; exact h3 f hf

theorem prunePass_inv (numFam : Nat) (s : LinkSt) (h : LSInv numFam s) :
    LSInv numFam (prunePass numFam s).1 := by
  unfold prunePass
  refine foldl_inv _ (fun sb => LSInv numFam sb.1) _ ?_ (s, true) h
  intro b a ha hb
  dsimp only
  split
  · exact pruneFam_inv numFam b.1 a (List.mem_range.mp ha) hb
  · exact hb

/-- Once the `done` flag is cleared it stays cleared within the pass. -/
theorem prunePass_false_stays (numFam : Nat) :
    ∀ (l : List Nat) (s0 : LinkSt),
      (l.foldl (fun sb i => if sb.1.nlink i = 1 then (pruneFam numFam sb.1 i, false) else sb)
        (s0, false)).2 = false := by
  intro l
  induction l with
  | nil => intro s0; rfl
  | cons a as ih =>
    intro s0
    simp only [List.foldl_cons]
    split
    · exact ih _
    · exact ih s0

/-- A pass that reports `done` changed nothing and certifies that no family
had exactly one remaining link. -/
theorem prunePass_done_aux (numFam : Nat) :
    ∀ (l : List Nat) (s0 : LinkSt),
      (l.foldl (fun sb i => if sb.1.nlink i = 1 then (pruneFam numFam sb.1 i, false) else sb)
        (s0, true)).2 = true →
      (l.foldl (fun sb i => if sb.1.nlink i = 1 then (pruneFam numFam sb.1 i, false) else sb)
        (s0, true)).1 = s0 ∧ ∀ i ∈ l, s0.nlink i ≠ 1 := by
  intro l
  induction l with
  | nil => intro s0 _; exact ⟨rfl, fun i hi => absurd hi (List.not_mem_nil i)⟩
  | cons a as ih =>
    intro s0 hdone
    simp only [List.foldl_cons] at hdone ⊢
    by_cases ha : s0.nlink a = 1
    · rw [if_pos ha] at hdone ⊢
      rw [prunePass_false_stays numFam as _] at hdone
      cases hdone
    · rw [if_neg ha] at hdone ⊢
      obtain ⟨he, hall⟩ := ih s0 hdone
      refine ⟨he, fun i hi => ?_⟩
      rcases List.mem_cons.mp hi with h | h
      · subst h; exact ha
      · exact hall i h

theorem prunePass_done (numFam : Nat) (s : LinkSt)
    (h : (prunePass numFam s).2 = true) :
    (prunePass numFam s).1 = s ∧ ∀ i, i < numFam → s.nlink i ≠ 1 := by
  obtain ⟨he, hall⟩ := prunePass_done_aux numFam (List.range numFam) s h
  exact ⟨he, fun i hi => hall i (List.mem_range.mpr hi)⟩

/-- The pruning loop preserves the invariant and stops at a fixed point
with no degree-1 family. -/
theorem pruneLoop_spec (numFam : Nat) :
    ∀ fuel s s', LSInv numFam s → pruneLoop numFam fuel s = some s' →
      LSInv numFam s' ∧ ∀ i, i < numFam → s'.nlink i ≠ 1 := by
  intro fuel
  induction fuel with
  | zero => intro s s' _ h; cases h
  | succ k ih =>
    intro s s' hinv h
    unfold pruneLoop at h
    by_cases hdone : (prunePass numFam s).2 = true
    · rw [if_pos hdone] at h
      injection h with h
      obtain ⟨he, hall⟩ := prunePass_done numFam s hdone
      subst h
      rw [he]
      exact ⟨hinv, hall⟩
    · rw [if_neg hdone] at h
      exact ih _ s' (prunePass_inv numFam s hinv) h

/-- A parent reference is in range: its parental-family index, when
present, is below the pedigree's family count. -/
def parOK (n : Nat) (p : LPar) : Bool :=
  match p.famSeq with
  | some pf => decide (pf < n)
  | none => true

theorem parOK_spec (n : Nat) (p : LPar) (h : parOK n p = true) :
    ∀ pf, p.famSeq = some pf → pf < n := by
  intro pf hpf
  unfold parOK at h
  rw [hpf] at h
  exact of_decide_eq_true h

/-- Well-formed pedigree input for `makeLinks`: parental-family indices
stay inside the pedigree. -/
def LWF (fams : List LFam) : Prop :=
  ∀ k, k < fams.length →
    parOK fams.length (fams.getD k ⟨⟨0, none⟩, ⟨0, none⟩, 0⟩).fa = true ∧
    parOK fams.length (fams.getD k ⟨⟨0, none⟩, ⟨0, none⟩, 0⟩).mo = true

theorem emptyLinkSt_inv (numFam : Nat) : LSInv numFam emptyLinkSt := by
  refine ⟨?_, ?_, ?_⟩
  · intro f; simp [emptyLinkSt, distinctInds]
  · intro i; simp [emptyLinkSt, cntInd]
  · intro f _; rfl

theorem linkParent_inv (numFam : Nat) (s : LinkSt) (k : Nat) (p : LPar)
    (hk : k < numFam) (hp : ∀ pf, p.famSeq = some pf → pf < numFam)
    (h : LSInv numFam s) : LSInv numFam (linkParent s k p) := by
  unfold linkParent
  cases hc : p.famSeq with
  | none => exact h
  | some pf =>
    exact addLink_inv _ _ pf k _ (hp pf hc) (addLink_inv _ _ k pf _ hk h)

theorem buildStep_inv (fams : List LFam) (s : LinkSt) (k : Nat)
    (hk : k < fams.length) (hwf : LWF fams) (h : LSInv fams.length s) :
    LSInv fams.length (buildStep fams s k) := by
  unfold buildStep
  obtain ⟨hfa, hmo⟩ := hwf k hk
  have h2 : LSInv fams.length
      (linkParent (linkParent s k (fams.getD k ⟨⟨0, none⟩, ⟨0, none⟩, 0⟩).fa) k
        (fams.getD k ⟨⟨0, none⟩, ⟨0, none⟩, 0⟩).mo) :=
    linkParent_inv _ _ k _ hk (parOK_spec _ _ hmo)
      (linkParent_inv _ _ k _ hk (parOK_spec _ _ hfa) h)
  refine foldl_inv _ (LSInv fams.length) _ ?_ _ h2
  intro b a ha hb
  have hak : a < fams.length := lt_trans (List.mem_range.mp ha) hk
  dsimp only
  by_cases hfa2 : (fams.getD a ⟨⟨0, none⟩, ⟨0, none⟩, 0⟩).fa.seq
      = (fams.getD k ⟨⟨0, none⟩, ⟨0, none⟩, 0⟩).fa.seq
  · rw [if_pos hfa2]
    by_cases hmo2 : (fams.getD a ⟨⟨0, none⟩, ⟨0, none⟩, 0⟩).mo.seq
        = (fams.getD k ⟨⟨0, none⟩, ⟨0, none⟩, 0⟩).mo.seq
    · rw [if_pos hmo2]
      exact addLink_inv _ _ a k _ hak (addLink_inv _ _ k a _ hk
        (addLink_inv _ _ a k _ hak (addLink_inv _ _ k a _ hk hb)))
    · rw [if_neg hmo2]
      exact addLink_inv _ _ a k _ hak (addLink_inv _ _ k a _ hk hb)
  · rw [if_neg hfa2]
    by_cases hmo2 : (fams.getD a ⟨⟨0, none⟩, ⟨0, none⟩, 0⟩).mo.seq
        = (fams.getD k ⟨⟨0, none⟩, ⟨0, none⟩, 0⟩).mo.seq
    · rw [if_pos hmo2]
      exact addLink_inv _ _ a k _ hak (addLink_inv _ _ k a _ hk hb)
    · rw [if_neg hmo2]
      exact hb

theorem buildLinks_inv (fams : List LFam) (hwf : LWF fams) :
    LSInv fams.length (buildLinks fams) := by
  unfold buildLinks
  refine foldl_inv _ (LSInv fams.length) _ ?_ _ (emptyLinkSt_inv _)
  intro b a ha hb
  exact buildStep_inv fams b a (List.mem_range.mp ha) hwf hb

/-- `makeLinks` (build + prune to fixed point) yields an invariant-carrying
residual with no degree-1 family. -/
theorem makeLinksRun_spec (fams : List LFam) (fuel : Nat) (s : LinkSt)
    (hwf : LWF fams) (h : makeLinksRun fams fuel = some s) :
    LSInv fams.length s ∧ ∀ f, f < fams.length → s.nlink f ≠ 1 :=
  pruneLoop_spec fams.length fuel _ s (buildLinks_inv fams hwf) h

/-- Under the bookkeeping invariant, `findBreaks`'s `narcs` and `nodes`
counters equal the structural counts of the residual graph, and the
returned count is the circuit-rank expression. -/
theorem findBreaks_spec (numFam numInd : Nat) (s : LinkSt) (junk : Int)
    (h : LSInv numFam s)
    (hge : resNodes numFam numInd s ≤ resArcs numFam s) :
    findBreaks numFam numInd s junk =
      (resArcs numFam s : Int) - (resNodes numFam numInd s : Int) + 1 := by
  obtain ⟨h1, h2, _⟩ := h
  have harcs : (∑ f ∈ Finset.range numFam, s.nlink f) = resArcs numFam s :=
    Finset.sum_congr rfl (fun f _ => h1 f)
  have hnodes :
      ((List.range numFam).filter (fun f => s.nlink f ≠ 0)).length +
        ((List.range numInd).filter (fun i => s.linkInd i ≠ 0)).length =
      resNodes numFam numInd s := by
    unfold resNodes
    congr 1
    · apply congrArg
      apply List.filter_congr
      intro f _
      apply decide_eq_decide.mpr
      rw [h1 f]
      unfold distinctInds
      constructor
      · intro hne
        intro hnil
        rw [hnil] at hne
        simp at hne
      · intro hne hcard
        rw [Finset.card_eq_zero, List.toFinset_eq_empty_iff] at hcard
        cases hl : s.linkList f with
        | nil => exact hne hl
        | cons y ys => rw [hl] at hcard; cases hcard
    · apply congrArg
      apply List.filter_congr
      intro i _
      rw [h2 i]
      unfold cntInd
      cases hs : (List.range numFam).any fun f => (s.linkList f).any fun r => r.1 = i
      · simp only [decide_eq_false_iff_not, ne_eq, not_not]
        apply Finset.sum_eq_zero
        intro f hf
        have : ∀ r ∈ s.linkList f, ¬ (r.1 = i) := by
          intro r hr hri
          have : (List.range numFam).any (fun f => (s.linkList f).any fun r => r.1 = i)
              = true :=
            List.any_eq_true.mpr ⟨f, List.mem_range.mpr (Finset.mem_range.mp hf),
              List.any_eq_true.mpr ⟨r, hr, decide_eq_true hri⟩⟩
          rw [hs] at this
          cases this
        have : (s.linkList f).filter (fun r => r.1 = i) = [] := by
          rw [List.filter_eq_nil_iff]
          intro r hr
          simpa using this r hr
        rw [this]
        rfl
      · simp only [decide_eq_true_eq, ne_eq]
        obtain ⟨f, hfm, hfa⟩ := List.any_eq_true.mp hs
        obtain ⟨r, hr, hri⟩ := List.any_eq_true.mp hfa
        intro hzero
        rw [Finset.sum_eq_zero_iff] at hzero
        have hf0 := hzero f (Finset.mem_range.mpr (List.mem_range.mp hfm))
        rw [List.length_eq_zero] at hf0
        have : r ∈ (s.linkList f).filter (fun r => r.1 = i) :=
          List.mem_filter.mpr ⟨hr, hri⟩
        rw [hf0] at this
        cases this
  unfold findBreaks
  rw [harcs, hnodes, if_pos (by exact_mod_cast hge)]

/-- **C3.** For a pedigree failing the loop-free test (`arcs ≥ nind + nfam`):
after the family-link multigraph is built and degree-1 families are pruned
to a fixed point (no family retains exactly one link), the reported
loop-breaker count equals `remaining arcs − remaining nodes + 1`, where
arcs counts distinct connecting individuals per surviving family and nodes
counts families with surviving links plus individuals appearing in
surviving links. -/
theorem loop_breaker_circuit_rank (fams : List LFam) (nind numInd fuel : Nat)
    (junk : Int) (s : LinkSt) (hwf : LWF fams)
    (hloop : ¬ ((fams.map (fun f => f.nkid + 2)).sum < nind + fams.length))
    (hml : makeLinksRun fams fuel = some s)
    (hge : resNodes fams.length numInd s ≤ resArcs fams.length s) :
    checkPed fams nind numInd fuel junk =
      some (true, (resArcs fams.length s : Int) -
        (resNodes fams.length numInd s : Int) + 1) ∧
    (∀ f, f < fams.length → s.nlink f ≠ 1) := by
  obtain ⟨hinv, hfix⟩ := makeLinksRun_spec fams fuel s hwf hml
  constructor
  · unfold checkPed
    rw [if_neg hloop, hml]
    simp only
    rw [findBreaks_spec fams.length numInd s junk hinv hge]
  · exact hfix

def famsLoopEx : List LFam :=
  [⟨⟨0, none⟩, ⟨1, none⟩, 2⟩, ⟨⟨2, some 0⟩, ⟨3, some 0⟩, 1⟩]

def sLoopEx : LinkSt := (makeLinksRun famsLoopEx 3).getD emptyLinkSt

theorem loop_breaker_circuit_rank_witness :
    makeLinksRun famsLoopEx 3 = some sLoopEx ∧
    resNodes 2 5 sLoopEx ≤ resArcs 2 sLoopEx ∧
    checkPed famsLoopEx 5 5 3 0 =
      some (true, (resArcs 2 sLoopEx : Int) - (resNodes 2 5 sLoopEx : Int) + 1) ∧
    (∀ f, f < 2 → sLoopEx.nlink f ≠ 1) := by
  have hml : makeLinksRun famsLoopEx 3 = some sLoopEx := rfl
  have hge : resNodes 2 5 sLoopEx ≤ resArcs 2 sLoopEx := by decide
  have := loop_breaker_circuit_rank famsLoopEx 5 5 3 0 sLoopEx
    (by unfold LWF; decide) (by decide) hml hge
  exact ⟨hml, hge, this.1, this.2⟩

/-- **C4.** The reported loop-breaker count is never negative (under the
invariant-implied residual inequality `nodes ≤ arcs` that rules out the
uninitialized-`nlbrk` path of `findBreaks`), and every pedigree with
`arcs < nodes` reports `hasloops = FALSE` and 0 loop-breakers. -/
theorem loop_breaker_count_nonneg (fams : List LFam) (nind numInd fuel : Nat)
    (junk : Int) :
    ((fams.map (fun f => f.nkid + 2)).sum < nind + fams.length →
      checkPed fams nind numInd fuel junk = some (false, 0)) ∧
    (∀ s r, LWF fams → makeLinksRun fams fuel = some s →
      resNodes fams.length numInd s ≤ resArcs fams.length s →
      checkPed fams nind numInd fuel junk = some r → 0 ≤ r.2) := by
  constructor
  · intro hlt
    unfold checkPed
    rw [if_pos hlt]
  · intro s r hwf hml hge hcp
    by_cases hlt : (fams.map (fun f => f.nkid + 2)).sum < nind + fams.length
    · unfold checkPed at hcp
      rw [if_pos hlt] at hcp
      injection hcp with hcp
      subst hcp
      exact le_refl 0
    · obtain ⟨hcp2, _⟩ :=
        loop_breaker_circuit_rank fams nind numInd fuel junk s hwf hlt hml hge
      rw [hcp2] at hcp
      injection hcp with hcp
      subst hcp
      simp only
      omega

def famsTreeEx : List LFam := [⟨⟨0, none⟩, ⟨1, none⟩, 1⟩]

theorem loop_breaker_count_nonneg_witness :
    checkPed famsTreeEx 3 3 2 0 = some (false, 0) ∧
    (∃ r, checkPed famsLoopEx 5 5 3 0 = some r ∧ 0 ≤ r.2) := by
  constructor
  · exact (loop_breaker_count_nonneg famsTreeEx 3 3 2 0).1 (by decide)
  · refine ⟨(true, 1), rfl, ?_⟩
    exact (loop_breaker_count_nonneg famsLoopEx 5 5 3 0).2 sLoopEx (true, 1)
      (by unfold LWF; decide) rfl (by decide) rfl

/-- **C10.** `nlink[f]` counts distinct connecting individuals: `addLink`
does not increment it when a link through the same individual is already
present (and increments it otherwise); `rmLink` decrements it only when
the removed link was the last one through its individual; consequently,
after `makeLinks`, `nlink f` equals the number of distinct connecting
individuals in `f`'s link list and the `findBreaks` arc sum counts
distinct connecting individuals per family. -/
theorem nlink_counts_distinct_individuals :
    (∀ s f1 f2 ind, ((s.linkList f1).any (fun r => r.1 = ind)) = true →
      (addLink s f1 f2 ind).nlink f1 = s.nlink f1) ∧
    (∀ s f1 f2 ind, ¬ (((s.linkList f1).any (fun r => r.1 = ind)) = true) →
      (addLink s f1 f2 ind).nlink f1 = s.nlink f1 + 1) ∧
    (∀ s f1 f2 x rest, s.nlink f1 ≠ 0 →
      removeFirst (fun r => r.2 = f2) (s.linkList f1) = some (x, rest) →
      ((rest.any (fun r => r.1 = x.1) = true →
        (rmLink s f1 f2).nlink f1 = s.nlink f1) ∧
       (¬ (rest.any (fun r => r.1 = x.1) = true) →
        (rmLink s f1 f2).nlink f1 = s.nlink f1 - 1))) ∧
    (∀ fams fuel s, LWF fams → makeLinksRun fams fuel = some s →
      (∀ f, s.nlink f = distinctInds s f) ∧
      (∑ f ∈ Finset.range fams.length, s.nlink f = resArcs fams.length s)) := by
  refine ⟨?_, ?_, ?_, ?_⟩
  · intro s f1 f2 ind hfound
    unfold addLink
    simp only [hfound, if_true]
  · intro s f1 f2 ind hfound
    unfold addLink
    simp only [hfound, Bool.false_eq_true, if_false]
    rw [upd_same]
  · intro s f1 f2 x rest hnz hrf
    unfold rmLink
    rw [if_neg hnz, hrf]
    simp only
    constructor
    · intro hany
      rw [if_pos hany]
    · intro hany
      rw [if_neg hany]
      dsimp only
      rw [upd_same]
  · intro fams fuel s hwf hml
    obtain ⟨⟨h1, _, _⟩, _⟩ := makeLinksRun_spec fams fuel s hwf hml
    exact ⟨h1, Finset.sum_congr rfl (fun f _ => h1 f)⟩

theorem nlink_counts_distinct_individuals_witness :
    (addLink (addLink emptyLinkSt 0 1 5) 0 2 5).nlink 0 =
      (addLink emptyLinkSt 0 1 5).nlink 0 ∧
    (addLink emptyLinkSt 0 1 5).nlink 0 = emptyLinkSt.nlink 0 + 1 ∧
    (rmLink (addLink emptyLinkSt 0 1 5) 0 1).nlink 0 =
      (addLink emptyLinkSt 0 1 5).nlink 0 - 1 ∧
    (∀ f, sLoopEx.nlink f = distinctInds sLoopEx f) := by
  refine ⟨?_, ?_, ?_, ?_⟩
  · exact nlink_counts_distinct_individuals.1 (addLink emptyLinkSt 0 1 5) 0 2 5
      (by decide)
  · exact nlink_counts_distinct_individuals.2.1 emptyLinkSt 0 1 5 (by decide)
  · exact ((nlink_counts_distinct_individuals.2.2.1 (addLink emptyLinkSt 0 1 5)
      0 1 (5, 1) [] (by decide) (by decide)).2 (by decide))
  · exact ((nlink_counts_distinct_individuals.2.2.2 famsLoopEx 3 sLoopEx
      (by unfold LWF; decide) rfl).1)

/-! # Kinship engine (`calcKin2`, ibdprep.c:2123-2238), claims C1, C5, C6

Model of one data set in final (`IndSeq`) order: individual `i` carries its
family's parent sequence numbers (`fam = some (fa.seq, mo.seq)`, `none` for
a founder), its integer twin-group id (`0` = none) and its pedigree id.
The C `float` matrix `kin2` (lower triangle, entry `[max][min]`) becomes a
total map `Nat → Nat → ℚ` written and read at `(max i j, min i j)`.
The ghost field `res` records the order in which diagonal entries are
resolved (founders at initialization, then each processed representative);
it does not influence the computation. -/

structure KInd where
  fam : Option (Nat × Nat)
  itwinid : Nat
  ped : Nat
  deriving DecidableEq

def dKInd : KInd := ⟨none, 0, 0⟩

def famOf (inds : List KInd) (i : Nat) : Option (Nat × Nat) :=
  (inds.getD i dKInd).fam

/-- One step of the twin-collapsing loop (ibdprep.c:2137-2146):
`itwin[i] = i`; when the twin id is set, either redirect `itwin[i]` to the
group's first member (`twin1`) or record `i` as the first member. -/
def mkItwinStep (inds : List KInd) (st : (Nat → Nat) × (Nat → Int)) (i : Nat) :
    (Nat → Nat) × (Nat → Int) :=
  let st1 : (Nat → Nat) × (Nat → Int) := (upd st.1 i i, st.2)
  let tid := (inds.getD i dKInd).itwinid
  if tid = 0 then st1
  else if st1.2 (tid - 1) ≠ -1 then (upd st1.1 i (st1.2 (tid - 1)).toNat, st1.2)
  else (st1.1, upd st1.2 (tid - 1) i)

def mkItwin (inds : List KInd) : Nat → Nat :=
  ((List.range inds.length).foldl (mkItwinStep inds) (fun i => i, fun _ => -1)).1

/-- Lower-triangle read `kin2[max(i,j)][min(i,j)]`. -/
def kget (m : Nat → Nat → ℚ) (i j : Nat) : ℚ := m (max i j) (min i j)

/-- Lower-triangle write `kin2[max(i,j)][min(i,j)] = v`. -/
def kset (m : Nat → Nat → ℚ) (i j : Nat) (v : ℚ) : Nat → Nat → ℚ :=
  fun a b => if a = max i j ∧ b = min i j then v else m a b

structure KState where
  m : Nat → Nat → ℚ
  count : Nat
  res : List Nat

/-- The initialization loop (ibdprep.c:2148-2160): all entries zero except
`kin2[i][i] = 1` for founders, which are also counted; `res` logs the
founders (in index order) as already resolved. -/
def kinInit (inds : List KInd) : KState :=
  { m := fun a b =>
      if a = b ∧ a < inds.length ∧ (famOf inds a).isNone = true then 1 else 0,
    count := ((List.range inds.length).filter
      (fun i => (famOf inds i).isNone)).length,
    res := (List.range inds.length).filter (fun i => (famOf inds i).isNone) }

/-- The inner `for (j...)` loop of one resolution step (ibdprep.c:2168-2173):
for every already-resolved representative `j`, write
`kin2[max(i,j)][min(i,j)] = .5*(kin2[max(ifa,j)][min(ifa,j)] + kin2[max(imo,j)][min(imo,j)])`. -/
def crossFold (itwin : Nat → Nat) (n i ifa imo : Nat) (m : Nat → Nat → ℚ) :
    Nat → Nat → ℚ :=
  (List.range n).foldl (fun mm j =>
    if itwin j = j ∧ kget mm j j ≠ 0 then
      kset mm i j (1/2 * (kget mm ifa j + kget mm imo j))
    else mm) m

/-- Processing one individual `i` in a pass (ibdprep.c:2163-2180): skip
unless `i` is an unresolved representative whose (twin-collapsed) parents
are both resolved; otherwise fill `i`'s row against all resolved
representatives and set `kin2[i][i] = 1 + .5*kin2[max(ifa,imo)][min(ifa,imo)]`. -/
def procInd (inds : List KInd) (itwin : Nat → Nat) (n : Nat) (s : KState)
    (i : Nat) : KState :=
  if itwin i ≠ i ∨ kget s.m i i ≠ 0 then s
  else
    match famOf inds i with
    | none => s
    | some (fa, mo) =>
      let ifa := itwin fa
      let imo := itwin mo
      if kget s.m ifa ifa = 0 ∨ kget s.m imo imo = 0 then s
      else
        let mj := crossFold itwin n i ifa imo s.m
        { m := kset mj i i (1 + 1/2 * kget mj ifa imo),
          count := s.count + 1,
          res := s.res ++ [i] }

def kinPass (inds : List KInd) (itwin : Nat → Nat) (n : Nat) (s : KState) :
    KState :=
  (List.range n).foldl (procInd inds itwin n) s

/-- Number of twin representatives (the `n` counted at ibdprep.c:2150). -/
def nReps (inds : List KInd) : Nat :=
  ((List.range inds.length).filter (fun i => mkItwin inds i = i)).length

/-- The `do { ... } while (count < n)` fixed-point loop
(ibdprep.c:2162-2181); `none` models the infinite spin when no progress is
possible. -/
def kinLoop (inds : List KInd) (itwin : Nat → Nat) (n nreps : Nat) :
    Nat → KState → Option KState
  | 0, _ => none
  | fuel + 1, s =>
    let s' := kinPass inds itwin n s
    if s'.count < nreps then kinLoop inds itwin n nreps fuel s' else some s'

/-- The twin fold-back (ibdprep.c:2183-2187): every row/column is copied
from its representative's row/column. -/
def twinFold (itwin : Nat → Nat) (n : Nat) (m : Nat → Nat → ℚ) :
    Nat → Nat → ℚ :=
  (List.range n).foldl (fun mm i =>
    let mm2 := (List.range i).foldl
      (fun mmm j => kset mmm i j (kget mmm (itwin i) (itwin j))) mm
    kset mm2 i i (kget mm2 (itwin i) (itwin i))) m

/-- The inbreeding flags (ibdprep.c:2189-2190 and 2227-2230): initialized
to `FALSE` per pedigree; set when an individual's self-coefficient
exceeds 1. -/
def inbredFlags (inds : List KInd) (n : Nat) (m : Nat → Nat → ℚ) :
    Nat → Bool :=
  (List.range n).foldl (fun fl i =>
    if 1 < kget m i i then upd fl (inds.getD i dKInd).ped true else fl)
    (fun _ => false)

/-- The per-pair `delta7` computation of the output loop
(ibdprep.c:2196-2213): `1` for co-twins, else the parental product formula
when both individuals have families, else `0`. -/
def delta7 (inds : List KInd) (itwin : Nat → Nat) (m : Nat → Nat → ℚ)
    (i j : Nat) : ℚ :=
  if itwin i = itwin j then 1
  else
    match famOf inds i, famOf inds j with
    | some (ifa, imo), some (jfa, jmo) =>
      1/4 * (kget m ifa jfa * kget m imo jmo + kget m ifa jmo * kget m imo jfa)
    | _, _ => 0

structure KOut where
  m : Nat → Nat → ℚ
  itwin : Nat → Nat
  res : List Nat
  inbred : Nat → Bool

/-- The full `calcKin2` pipeline (ibdprep.c:2123-2238), up to the final
matrix, resolution log and inbreeding flags (file output omitted). -/
def calcKin2 (inds : List KInd) (fuel : Nat) : Option KOut :=
  let n := inds.length
  let itwin := mkItwin inds
  match kinLoop inds itwin n (nReps inds) fuel (kinInit inds) with
  | none => none
  | some s =>
    let mf := twinFold itwin n s.m
    some ⟨mf, itwin, s.res, inbredFlags inds n mf⟩

/-! ## Twin-collapse map: `itwin` is an idempotent retraction -/

def itwAux (inds : List KInd) (k : Nat) : (Nat → Nat) × (Nat → Int) :=
  (List.range k).foldl (mkItwinStep inds) (fun i => i, fun _ => -1)

/-- Invariant of the twin-collapse loop after processing `0..k-1`:
unprocessed indices are untouched and not yet `twin1` targets; the map is
idempotent; `twin1` entries are processed fixed points; every non-trivial
map value is a `twin1` entry. -/
def TInv (k : Nat) (st : (Nat → Nat) × (Nat → Int)) : Prop :=
  (∀ x, k ≤ x → st.1 x = x) ∧
  (∀ x t, k ≤ x → st.2 t ≠ (x : Int)) ∧
  (∀ x, st.1 (st.1 x) = st.1 x) ∧
  (∀ t, st.2 t = -1 ∨
    (0 ≤ st.2 t ∧ (st.2 t).toNat < k ∧ st.1 (st.2 t).toNat = (st.2 t).toNat)) ∧
  (∀ x, st.1 x = x ∨ ∃ t, 0 ≤ st.2 t ∧ (st.2 t).toNat = st.1 x)

theorem itwAux_succ (inds : List KInd) (k : Nat) :
    itwAux inds (k + 1) = mkItwinStep inds (itwAux inds k) k := by
  unfold itwAux
  rw [List.range_succ, List.foldl_append, List.foldl_cons, List.foldl_nil]

theorem itwAux_inv (inds : List KInd) : ∀ k, TInv k (itwAux inds k) := by
  intro k
  induction k with
  | zero =>
    refine ⟨fun x _ => rfl, fun x t _ => by simp [itwAux], fun x => rfl,
      fun t => Or.inl rfl, fun x => Or.inl rfl⟩
  | succ k ih =>
    obtain ⟨hA, hB, hC, hD, hE⟩ := ih
    rw [itwAux_succ]
    set st := itwAux inds k with hst
    have hupd : upd st.1 k k = st.1 := by
      funext x
      unfold upd
      split
      · next hx => rw [hx, hA k (le_refl k)]
      · rfl
    unfold mkItwinStep
    by_cases ht0 : (inds.getD k dKInd).itwinid = 0
    · rw [if_pos ht0]
      rw [hupd]
      show TInv (k + 1) st
      refine ⟨fun x hx => hA x (by omega), fun x t hx => hB x t (by omega), hC,
        ?_, hE⟩
      intro t
      rcases hD t with h | ⟨h1, h2, h3⟩
      · exact Or.inl h
      · exact Or.inr ⟨h1, by omega, h3⟩
    · rw [if_neg ht0]
      dsimp only
      by_cases htw : st.2 ((inds.getD k dKInd).itwinid - 1) ≠ -1
      · rw [if_pos htw]
        rw [hupd]
        set t0 := (inds.getD k dKInd).itwinid - 1 with ht0d
        rcases hD t0 with h | ⟨h1, h2, h3⟩
        · exact absurd h htw
        · set w := (st.2 t0).toNat with hwd
          have hwk : w ≠ k := by omega
          refine ⟨?_, ?_, ?_, ?_, ?_⟩
          · intro x hx
            dsimp only
            rw [upd_ne _ _ _ (by omega : x ≠ k)]
            exact hA x (by omega)
          · intro x t hx
            dsimp only
            exact hB x t (by omega)
          · intro x
            dsimp only
            by_cases hxk : x = k
            · subst hxk
              rw [upd_same, upd_ne _ _ _ hwk, h3]
            · rw [upd_ne _ _ _ hxk]
              have hsx : st.1 x ≠ k := by
                intro hk
                rcases hE x with h | ⟨t, htt, htv⟩
                · omega
                · have : st.2 t = (k : Int) := by omega
                  exact hB k t (le_refl k) this
              rw [upd_ne _ _ _ hsx]
              exact hC x
          · intro t
            dsimp only
            rcases hD t with h | ⟨g1, g2, g3⟩
            · exact Or.inl h
            · refine Or.inr ⟨g1, by omega, ?_⟩
              rw [upd_ne _ _ _ (by omega : (st.2 t).toNat ≠ k)]
              exact g3
          · intro x
            dsimp only
            by_cases hxk : x = k
            · subst hxk
              rw [upd_same]
              exact Or.inr ⟨t0, h1, rfl⟩
            · rw [upd_ne _ _ _ hxk]
              exact hE x
      · rw [if_neg htw]
        push_neg at htw
        rw [hupd]
        set t0 := (inds.getD k dKInd).itwinid - 1 with ht0d
        refine ⟨?_, ?_, ?_, ?_, ?_⟩
        · intro x hx
          dsimp only
          exact hA x (by omega)
        · intro x t hx
          dsimp only
          by_cases htt : t = t0
          · subst htt
            rw [upd_same]
            omega
          · rw [upd_ne _ _ _ htt]
            exact hB x t (by omega)
        · intro x
          dsimp only
          exact hC x
        · intro t
          dsimp only
          by_cases htt : t = t0
          · subst htt
            rw [upd_same]
            refine Or.inr ⟨by omega, by simp, ?_⟩
            simp only [Int.toNat_natCast]
            exact hA k (le_refl k)
          · rw [upd_ne _ _ _ htt]
            rcases hD t with h | ⟨g1, g2, g3⟩
            · exact Or.inl h
            · exact Or.inr ⟨g1, by omega, g3⟩
        · intro x
          dsimp only
          rcases hE x with h | ⟨t, htt, htv⟩
          · exact Or.inl h
          · have htne : t ≠ t0 := by
              intro he
              rw [he, htw] at htt
              omega
            exact Or.inr ⟨t, by rw [upd_ne _ _ _ htne]; exact htt,
              by rw [upd_ne _ _ _ htne]; exact htv⟩

/-- `itwin` is idempotent (its values are representatives) and is the
identity beyond the data set. -/
theorem mkItwin_spec (inds : List KInd) :
    (∀ x, mkItwin inds (mkItwin inds x) = mkItwin inds x) ∧
    (∀ x, inds.length ≤ x → mkItwin inds x = x) := by
  obtain ⟨hA, _, hC, _, _⟩ := itwAux_inv inds inds.length
  exact ⟨hC, hA⟩

/-! ## Matrix access lemmas -/

theorem kget_comm (m : Nat → Nat → ℚ) (i j : Nat) : kget m i j = kget m j i := by
  unfold kget
  rw [Nat.max_comm, Nat.min_comm]

theorem kget_kset_same (m : Nat → Nat → ℚ) (i j : Nat) (v : ℚ) :
    kget (kset m i j v) i j = v := by
  unfold kget kset
  simp

theorem kset_entry_ne (m : Nat → Nat → ℚ) (i j : Nat) (v : ℚ) (a b : Nat)
    (h : ¬(a = max i j ∧ b = min i j)) : kset m i j v a b = m a b := by
  unfold kset
  rw [if_neg h]

theorem kget_kset_ne (m : Nat → Nat → ℚ) (i j : Nat) (v : ℚ) (a b : Nat)
    (h : ¬((a = i ∧ b = j) ∨ (a = j ∧ b = i))) :
    kget (kset m i j v) a b = kget m a b := by
  unfold kget kset
  rw [if_neg ?_]
  intro ⟨h1, h2⟩
  apply h
  omega

/-- `j` was resolved strictly before `i` in the resolution log. -/
def earlier (res : List Nat) (j i : Nat) : Prop :=
  j ∈ res ∧ i ∈ res ∧ res.indexOf j < res.indexOf i

theorem earlier_append (res : List Nat) (j i c : Nat) (h : earlier res j i) :
    earlier (res ++ [c]) j i := by
  obtain ⟨hj, hi, hlt⟩ := h
  refine ⟨List.mem_append_left _ hj, List.mem_append_left _ hi, ?_⟩
  rw [List.indexOf_append_of_mem hj, List.indexOf_append_of_mem hi]
  exact hlt

theorem earlier_snoc_new (res : List Nat) (j c : Nat) (hc : c ∉ res)
    (hj : j ∈ res) : earlier (res ++ [c]) j c := by
  refine ⟨List.mem_append_left _ hj,
    List.mem_append_right _ (List.mem_singleton.mpr rfl), ?_⟩
  rw [List.indexOf_append_of_mem hj, List.indexOf_append_of_not_mem hc]
  have h1 := List.indexOf_lt_length.mpr hj
  have h2 : List.indexOf c [c] = 0 := List.indexOf_cons_self c []
  omega

theorem earlier_snoc_inv (res : List Nat) (j i c : Nat) (hc : c ∉ res)
    (hic : i ≠ c) (h : earlier (res ++ [c]) j i) : earlier res j i := by
  obtain ⟨hj, hi, hlt⟩ := h
  have hi' : i ∈ res := by
    rcases List.mem_append.mp hi with h | h
    · exact h
    · exact absurd (List.mem_singleton.mp h) hic
  have hidxi : (res ++ [c]).indexOf i = res.indexOf i := List.indexOf_append_of_mem hi'
  have hj' : j ∈ res := by
    rcases List.mem_append.mp hj with h | h
    · exact h
    · exfalso
      have hjc : j = c := List.mem_singleton.mp h
      have h2 : (res ++ [c]).indexOf j = res.length + List.indexOf c [c] := by
        rw [hjc, List.indexOf_append_of_not_mem hc]
      have h3 := List.indexOf_lt_length.mpr hi'
      rw [hidxi] at hlt
      rw [h2] at hlt
      omega
  refine ⟨hj', hi', ?_⟩
  rw [List.indexOf_append_of_mem hj', hidxi] at hlt
  exact hlt

theorem earlier_snoc_self (res : List Nat) (j c : Nat) (hc : c ∉ res)
    (h : earlier (res ++ [c]) j c) : j ∈ res ∧ j ≠ c := by
  obtain ⟨hj, _, hlt⟩ := h
  have hjc : j ≠ c := by
    intro he
    rw [he] at hlt
    omega
  refine ⟨?_, hjc⟩
  rcases List.mem_append.mp hj with h | h
  · exact h
  · exact absurd (List.mem_singleton.mp h) hjc

/-! ## Specification of the inner cross-term loop -/

/-- State of the inner `j`-loop after the members of `S` have been visited:
for each eligible (resolved representative) visited `j`, the pair `(i,j)`
holds the cross-term value, and every other entry is untouched. -/
def CFDone (itwin : Nat → Nat) (i ifa imo : Nat) (m0 : Nat → Nat → ℚ)
    (S : List Nat) (mm : Nat → Nat → ℚ) : Prop :=
  (∀ j ∈ S, itwin j = j → kget m0 j j ≠ 0 →
    kget mm i j = 1/2 * (kget m0 ifa j + kget m0 imo j)) ∧
  (∀ a b, (∀ j ∈ S, itwin j = j → kget m0 j j ≠ 0 →
      ¬(a = max i j ∧ b = min i j)) →
    mm a b = m0 a b)

theorem CFDone_step (itwin : Nat → Nat) (i ifa imo : Nat) (m0 : Nat → Nat → ℚ)
    (S : List Nat) (mm : Nat → Nat → ℚ) (j : Nat)
    (hifa : ifa ≠ i) (himo : imo ≠ i) (hdiagi : kget m0 i i = 0)
    (hdone : CFDone itwin i ifa imo m0 S mm) :
    CFDone itwin i ifa imo m0 (S ++ [j])
      (if itwin j = j ∧ kget mm j j ≠ 0 then
        kset mm i j (1/2 * (kget mm ifa j + kget mm imo j))
      else mm) := by
  obtain ⟨hd1, hd2⟩ := hdone
  have hdiagj : kget mm j j = kget m0 j j := by
    unfold kget
    apply hd2
    intro j0 _ _ hnz0 ⟨e1, e2⟩
    have hij : i = j ∧ j0 = j := by omega
    rw [hij.2, ← hij.1] at hnz0
    exact hnz0 hdiagi
  by_cases helig : itwin j = j ∧ kget mm j j ≠ 0
  · rw [if_pos helig]
    have hnz0 : kget m0 j j ≠ 0 := by rw [← hdiagj]; exact helig.2
    have hji : j ≠ i := by
      intro he
      rw [he] at hnz0
      exact hnz0 hdiagi
    have hreadfa : kget mm ifa j = kget m0 ifa j := by
      unfold kget
      apply hd2
      intro j0 _ _ _ ⟨e1, e2⟩
      omega
    have hreadmo : kget mm imo j = kget m0 imo j := by
      unfold kget
      apply hd2
      intro j0 _ _ _ ⟨e1, e2⟩
      omega
    constructor
    · intro j0 hj0 hrep0 hnz0'
      rcases List.mem_append.mp hj0 with hmem | hmem
      · by_cases hj0j : j0 = j
        · subst hj0j
          rw [kget_kset_same, hreadfa, hreadmo]
        · rw [kget_kset_ne _ _ _ _ _ _ (by tauto)]
          exact hd1 j0 hmem hrep0 hnz0'
      · have hj0j : j0 = j := List.mem_singleton.mp hmem
        subst hj0j
        rw [kget_kset_same, hreadfa, hreadmo]
    · intro a b hcond
      have hcj : ¬(a = max i j ∧ b = min i j) :=
        hcond j (List.mem_append_right _ (List.mem_singleton.mpr rfl))
          helig.1 hnz0
      rw [kset_entry_ne _ _ _ _ _ _ hcj]
      apply hd2
      intro j0 hj0 hrep0 hnz0'
      exact hcond j0 (List.mem_append_left _ hj0) hrep0 hnz0'
  · rw [if_neg helig]
    constructor
    · intro j0 hj0 hrep0 hnz0'
      rcases List.mem_append.mp hj0 with hmem | hmem
      · exact hd1 j0 hmem hrep0 hnz0'
      · exfalso
        have hj0j : j0 = j := List.mem_singleton.mp hmem
        subst hj0j
        exact helig ⟨hrep0, by rw [hdiagj]; exact hnz0'⟩
    · intro a b hcond
      apply hd2
      intro j0 hj0 hrep0 hnz0'
      exact hcond j0 (List.mem_append_left _ hj0) hrep0 hnz0'

theorem CFDone_fold (itwin : Nat → Nat) (i ifa imo : Nat) (m0 : Nat → Nat → ℚ)
    (hifa : ifa ≠ i) (himo : imo ≠ i) (hdiagi : kget m0 i i = 0) :
    ∀ (l : List Nat) (S : List Nat) (mm : Nat → Nat → ℚ),
      CFDone itwin i ifa imo m0 S mm →
      CFDone itwin i ifa imo m0 (S ++ l)
        (l.foldl (fun mm j =>
          if itwin j = j ∧ kget mm j j ≠ 0 then
            kset mm i j (1/2 * (kget mm ifa j + kget mm imo j))
          else mm) mm) := by
  intro l
  induction l with
  | nil =>
    intro S mm h
    rw [List.append_nil]
    exact h
  | cons x xs ih =>
    intro S mm h
    rw [List.foldl_cons, show S ++ x :: xs = (S ++ [x]) ++ xs by simp]
    exact ih (S ++ [x]) _
      (CFDone_step itwin i ifa imo m0 S mm x hifa himo hdiagi h)

theorem crossFold_done (itwin : Nat → Nat) (n i ifa imo : Nat)
    (m0 : Nat → Nat → ℚ)
    (hifa : ifa ≠ i) (himo : imo ≠ i) (hdiagi : kget m0 i i = 0) :
    CFDone itwin i ifa imo m0 (List.range n)
      (crossFold itwin n i ifa imo m0) := by
  have := CFDone_fold itwin i ifa imo m0 hifa himo hdiagi (List.range n) [] m0
    ⟨fun j hj => absurd hj (List.not_mem_nil j), fun a b _ => rfl⟩
  rw [List.nil_append] at this
  exact this

/-- Entries not involving `i` are untouched by the cross-term loop. -/
theorem crossFold_pres (itwin : Nat → Nat) (n i ifa imo : Nat)
    (m0 : Nat → Nat → ℚ)
    (hifa : ifa ≠ i) (himo : imo ≠ i) (hdiagi : kget m0 i i = 0)
    (a b : Nat) (hai : a ≠ i) (hbi : b ≠ i) :
    kget (crossFold itwin n i ifa imo m0) a b = kget m0 a b := by
  unfold kget
  apply (crossFold_done itwin n i ifa imo m0 hifa himo hdiagi).2
  intro j0 _ _ _ ⟨e1, e2⟩
  omega

/-- The diagonal of `i` itself is untouched by the cross-term loop. -/
theorem crossFold_diag_i (itwin : Nat → Nat) (n i ifa imo : Nat)
    (m0 : Nat → Nat → ℚ)
    (hifa : ifa ≠ i) (himo : imo ≠ i) (hdiagi : kget m0 i i = 0) :
    kget (crossFold itwin n i ifa imo m0) i i = kget m0 i i := by
  unfold kget
  apply (crossFold_done itwin n i ifa imo m0 hifa himo hdiagi).2
  intro j0 _ _ hnz0 ⟨e1, e2⟩
  have hij : i = j0 := by omega
  rw [← hij] at hnz0
  exact hnz0 hdiagi

/-! ## The kinship loop invariant -/

/-- Invariant of the resolution loop.  `res` is the resolution log: an
index is in it exactly when its diagonal entry is non-zero (for
representatives); diagonal values of resolved individuals are at least 1;
the matrix is non-negative and supported on the lower triangle below
`inds.length`; founders carry diagonal 1 and are logged; and the claimed
self/cross recurrences hold for every resolved representative against the
current matrix. -/
structure KInv (inds : List KInd) (itwin : Nat → Nat) (s : KState) : Prop where
  resLt : ∀ i ∈ s.res, i < inds.length
  resNodup : s.res.Nodup
  resolved : ∀ i, i < inds.length → itwin i = i → (kget s.m i i ≠ 0 ↔ i ∈ s.res)
  fMem : ∀ i, i < inds.length → (famOf inds i).isNone = true → i ∈ s.res
  diagOne : ∀ i ∈ s.res, 1 ≤ kget s.m i i
  nonneg : ∀ a b, 0 ≤ s.m a b
  support : ∀ a b, s.m a b ≠ 0 → b ≤ a ∧ a < inds.length
  fDiag : ∀ i ∈ s.res, itwin i = i → famOf inds i = none → kget s.m i i = 1
  pRes : ∀ i ∈ s.res, ∀ fa mo, famOf inds i = some (fa, mo) →
    itwin fa ∈ s.res ∧ itwin mo ∈ s.res
  dEq : ∀ i ∈ s.res, itwin i = i → ∀ fa mo, famOf inds i = some (fa, mo) →
    kget s.m i i = 1 + 1/2 * kget s.m (itwin fa) (itwin mo)
  cEq : ∀ i ∈ s.res, itwin i = i → ∀ fa mo, famOf inds i = some (fa, mo) →
    ∀ j, itwin j = j → earlier s.res j i →
      kget s.m i j = 1/2 * (kget s.m (itwin fa) j + kget s.m (itwin mo) j)

theorem kget_nonneg (m : Nat → Nat → ℚ) (h : ∀ a b, 0 ≤ m a b) (i j : Nat) :
    0 ≤ kget m i j := h _ _

theorem kget_kset_same' (m : Nat → Nat → ℚ) (i j : Nat) (v : ℚ) (a b : Nat)
    (h : (a = i ∧ b = j) ∨ (a = j ∧ b = i)) : kget (kset m i j v) a b = v := by
  unfold kget kset
  rw [if_pos (by omega)]

theorem procInd_inv (inds : List KInd) (itwin : Nat → Nat)
    (hitw : ∀ x, itwin (itwin x) = itwin x) (s : KState) (i : Nat)
    (hi : i < inds.length) (h : KInv inds itwin s) :
    KInv inds itwin (procInd inds itwin inds.length s i) := by
  unfold procInd
  by_cases hskip : itwin i ≠ i ∨ kget s.m i i ≠ 0
  · rw [if_pos hskip]
    exact h
  · rw [if_neg hskip]
    push_neg at hskip
    obtain ⟨hrep, hdiag0⟩ := hskip
    cases hfam : famOf inds i with
    | none => exact h
    | some p =>
      obtain ⟨fa, mo⟩ := p
      simp only
      by_cases hpar : kget s.m (itwin fa) (itwin fa) = 0 ∨
          kget s.m (itwin mo) (itwin mo) = 0
      · rw [if_pos hpar]
        exact h
      · rw [if_neg hpar]
        push_neg at hpar
        obtain ⟨hfa0, hmo0⟩ := hpar
        have hinotres : i ∉ s.res := fun hm => ((h.resolved i hi hrep).mpr hm) hdiag0
        have hfa_rep : itwin (itwin fa) = itwin fa := hitw fa
        have hmo_rep : itwin (itwin mo) = itwin mo := hitw mo
        have hfa_lt : itwin fa < inds.length := by
          have : s.m (itwin fa) (itwin fa) ≠ 0 := by
            have := hfa0
            unfold kget at this
            simpa using this
          exact (h.support _ _ this).2
        have hmo_lt : itwin mo < inds.length := by
          have : s.m (itwin mo) (itwin mo) ≠ 0 := by
            have := hmo0
            unfold kget at this
            simpa using this
          exact (h.support _ _ this).2
        have hfa_mem : itwin fa ∈ s.res := (h.resolved _ hfa_lt hfa_rep).mp hfa0
        have hmo_mem : itwin mo ∈ s.res := (h.resolved _ hmo_lt hmo_rep).mp hmo0
        have hfa_ne : itwin fa ≠ i := fun he => hinotres (he ▸ hfa_mem)
        have hmo_ne : itwin mo ≠ i := fun he => hinotres (he ▸ hmo_mem)
        set n := inds.length with hn
        set mj := crossFold itwin n i (itwin fa) (itwin mo) s.m with hmj
        have hCF := crossFold_done itwin n i (itwin fa) (itwin mo) s.m hfa_ne hmo_ne hdiag0
        have hpres : ∀ a b, a ≠ i → b ≠ i → kget mj a b = kget s.m a b :=
          fun a b ha hb => crossFold_pres itwin n i _ _ s.m hfa_ne hmo_ne hdiag0 a b ha hb
        set d : ℚ := 1 + 1/2 * kget mj (itwin fa) (itwin mo) with hd
        have hdval : d = 1 + 1/2 * kget s.m (itwin fa) (itwin mo) := by
          rw [hd, hpres _ _ hfa_ne hmo_ne]
        have hd1 : 1 ≤ d := by
          rw [hdval]
          have := kget_nonneg s.m h.nonneg (itwin fa) (itwin mo)
          linarith
        set m' := kset mj i i d with hm'
        -- entry preservation lemmas for the final matrix of this step
        have hE1 : ∀ a b, a ≠ i → b ≠ i → kget m' a b = kget s.m a b := by
          intro a b ha hb
          rw [hm', kget_kset_ne _ _ _ _ _ _ (by tauto), hpres a b ha hb]
        have hE2 : kget m' i i = d := kget_kset_same _ _ _ _
        have hE3 : ∀ j, j < n → itwin j = j → j ∈ s.res →
            kget m' i j = 1/2 * (kget s.m (itwin fa) j + kget s.m (itwin mo) j) := by
          intro j hjlt hjrep hjmem
          have hji : j ≠ i := fun he => hinotres (he ▸ hjmem)
          have hjnz : kget s.m j j ≠ 0 := (h.resolved j hjlt hjrep).mpr hjmem
          rw [hm', kget_kset_ne _ _ _ _ _ _ (by tauto)]
          exact hCF.1 j (List.mem_range.mpr hjlt) hjrep hjnz
        -- raw-entry facts for nonneg and support
        have hraw : ∀ a b, m' a b = s.m a b ∨
            (a = i ∧ b = i ∧ m' a b = d) ∨
            (∃ j, j < n ∧ a = max i j ∧ b = min i j ∧
              m' a b = 1/2 * (kget s.m (itwin fa) j + kget s.m (itwin mo) j)) := by
          intro a b
          by_cases hii : a = i ∧ b = i
          · refine Or.inr (Or.inl ⟨hii.1, hii.2, ?_⟩)
            rw [hm']
            unfold kset
            rw [if_pos (by omega)]
          · have hm'ab : m' a b = mj a b := by
              rw [hm']
              unfold kset
              rw [if_neg (by omega)]
            by_cases hslot : ∀ j ∈ List.range n, itwin j = j → kget s.m j j ≠ 0 →
                ¬(a = max i j ∧ b = min i j)
            · left
              rw [hm'ab]
              exact hCF.2 a b hslot
            · right; right
              push_neg at hslot
              obtain ⟨j, hjm, hjrep, hjnz, he1, he2⟩ := hslot
              have hji : j ≠ i := by
                intro he
                rw [he] at hjnz
                exact hjnz hdiag0
              refine ⟨j, List.mem_range.mp hjm, he1, he2, ?_⟩
              rw [hm'ab]
              have : mj a b = kget mj i j := by
                unfold kget
                rw [← he1, ← he2]
              rw [this, hCF.1 j hjm hjrep hjnz]
        refine ⟨?_, ?_, ?_, ?_, ?_, ?_, ?_, ?_, ?_, ?_, ?_⟩
        · intro x hx
          rcases List.mem_append.mp hx with hm | hm
          · exact h.resLt x hm
          · rw [List.mem_singleton.mp hm]; exact hi
        · simp only [List.nodup_append, List.nodup_cons, List.not_mem_nil,
            List.nodup_nil]
          exact ⟨h.resNodup, by simp, by simpa using hinotres⟩
        · intro x hxlt hxrep
          by_cases hxi : x = i
          · subst hxi
            rw [hE2]
            constructor
            · intro _
              exact List.mem_append_right _ (List.mem_singleton.mpr rfl)
            · intro _
              intro hz
              rw [hz] at hd1
              norm_num at hd1
          · rw [hE1 x x hxi hxi]
            rw [h.resolved x hxlt hxrep]
            constructor
            · exact fun hm => List.mem_append_left _ hm
            · intro hm
              rcases List.mem_append.mp hm with hm | hm
              · exact hm
              · exact absurd (List.mem_singleton.mp hm) hxi
        · intro x hxlt hxfou
          exact List.mem_append_left _ (h.fMem x hxlt hxfou)
        · intro x hx
          rcases List.mem_append.mp hx with hm | hm
          · have hxi : x ≠ i := fun he => hinotres (he ▸ hm)
            rw [hE1 x x hxi hxi]
            exact h.diagOne x hm
          · rw [List.mem_singleton.mp hm, hE2]
            exact hd1
        · intro a b
          show (0 : ℚ) ≤ m' a b
          rcases hraw a b with hc | ⟨_, _, hc⟩ | ⟨j, _, _, _, hc⟩
          · rw [hc]; exact h.nonneg a b
          · rw [hc]; linarith
          · rw [hc]
            have h1 := kget_nonneg s.m h.nonneg (itwin fa) j
            have h2 := kget_nonneg s.m h.nonneg (itwin mo) j
            linarith
        · intro a b hz
          dsimp only at hz
          rcases hraw a b with hc | ⟨he1, he2, hc⟩ | ⟨j, hjlt, he1, he2, hc⟩
          · rw [hc] at hz
            exact h.support a b hz
          · rw [hn] at hi
            omega
          · rw [hn] at hi hjlt
            omega
        · intro x hx hxrep hxfou
          rcases List.mem_append.mp hx with hm | hm
          · have hxi : x ≠ i := fun he => hinotres (he ▸ hm)
            rw [hE1 x x hxi hxi]
            exact h.fDiag x hm hxrep hxfou
          · exfalso
            rw [List.mem_singleton.mp hm] at hxfou
            rw [hfam] at hxfou
            cases hxfou
        · intro x hx fa' mo' hxfam
          rcases List.mem_append.mp hx with hm | hm
          · obtain ⟨p1, p2⟩ := h.pRes x hm fa' mo' hxfam
            exact ⟨List.mem_append_left _ p1, List.mem_append_left _ p2⟩
          · rw [List.mem_singleton.mp hm] at hxfam
            rw [hfam] at hxfam
            injection hxfam with hp
            obtain ⟨hp1, hp2⟩ := Prod.mk.injEq .. ▸ hp
            cases hp1
            cases hp2
            exact ⟨List.mem_append_left _ hfa_mem, List.mem_append_left _ hmo_mem⟩
        · intro x hx hxrep fa' mo' hxfam
          rcases List.mem_append.mp hx with hm | hm
          · have hxi : x ≠ i := fun he => hinotres (he ▸ hm)
            obtain ⟨p1, p2⟩ := h.pRes x hm fa' mo' hxfam
            have hp1i : itwin fa' ≠ i := fun he => hinotres (he ▸ p1)
            have hp2i : itwin mo' ≠ i := fun he => hinotres (he ▸ p2)
            rw [hE1 x x hxi hxi, hE1 _ _ hp1i hp2i]
            exact h.dEq x hm hxrep fa' mo' hxfam
          · rw [List.mem_singleton.mp hm] at hxfam ⊢
            rw [hfam] at hxfam
            injection hxfam with hp
            obtain ⟨hp1, hp2⟩ := Prod.mk.injEq .. ▸ hp
            subst hp1; subst hp2
            rw [hE2, hE1 _ _ hfa_ne hmo_ne, hdval]
        · intro x hx hxrep fa' mo' hxfam j hjrep hearl
          rcases List.mem_append.mp hx with hm | hm
          · have hxi : x ≠ i := fun he => hinotres (he ▸ hm)
            have hearl' : earlier s.res j x :=
              earlier_snoc_inv s.res j x i hinotres hxi hearl
            have hjmem : j ∈ s.res := hearl'.1
            have hji : j ≠ i := fun he => hinotres (he ▸ hjmem)
            obtain ⟨p1, p2⟩ := h.pRes x hm fa' mo' hxfam
            have hp1i : itwin fa' ≠ i := fun he => hinotres (he ▸ p1)
            have hp2i : itwin mo' ≠ i := fun he => hinotres (he ▸ p2)
            rw [hE1 x j hxi hji, hE1 _ _ hp1i hji, hE1 _ _ hp2i hji]
            exact h.cEq x hm hxrep fa' mo' hxfam j hjrep hearl'
          · have hxieq : x = i := List.mem_singleton.mp hm
            subst hxieq
            obtain ⟨hjmem, hji⟩ := earlier_snoc_self s.res j x hinotres hearl
            rw [hfam] at hxfam
            injection hxfam with hp
            obtain ⟨hp1, hp2⟩ := Prod.mk.injEq .. ▸ hp
            subst hp1; subst hp2
            rw [hE3 j (h.resLt j hjmem) hjrep hjmem,
              hE1 _ _ hfa_ne hji, hE1 _ _ hmo_ne hji]

theorem kinPass_inv (inds : List KInd) (itwin : Nat → Nat)
    (hitw : ∀ x, itwin (itwin x) = itwin x) (s : KState) (h : KInv inds itwin s) :
    KInv inds itwin (kinPass inds itwin inds.length s) := by
  unfold kinPass
  exact foldl_inv (procInd inds itwin inds.length) (KInv inds itwin)
    (List.range inds.length)
    (fun b a ha hb => procInd_inv inds itwin hitw b a (List.mem_range.mp ha) hb)
    s h

theorem kinLoop_inv (inds : List KInd) (itwin : Nat → Nat)
    (hitw : ∀ x, itwin (itwin x) = itwin x) (nreps : Nat) :
    ∀ fuel s s', KInv inds itwin s →
      kinLoop inds itwin inds.length nreps fuel s = some s' → KInv inds itwin s' := by
  intro fuel
  induction fuel with
  | zero =>
    intro s s' _ hk
    exact Option.noConfusion hk
  | succ f ih =>
    intro s s' hs hk
    unfold kinLoop at hk
    by_cases hc : (kinPass inds itwin inds.length s).count < nreps
    · rw [if_pos hc] at hk
      exact ih _ _ (kinPass_inv inds itwin hitw s hs) hk
    · rw [if_neg hc] at hk
      injection hk with hk
      rw [← hk]
      exact kinPass_inv inds itwin hitw s hs

theorem kinInit_inv (inds : List KInd) (itwin : Nat → Nat) :
    KInv inds itwin (kinInit inds) := by
  unfold kinInit
  have hdg : ∀ x : Nat,
      kget (fun a b =>
        if a = b ∧ a < inds.length ∧ (famOf inds a).isNone = true
        then (1 : ℚ) else 0) x x =
      if x < inds.length ∧ (famOf inds x).isNone = true then 1 else 0 := by
    intro x
    unfold kget
    simp only [Nat.max_self, Nat.min_self]
    by_cases hc : x < inds.length ∧ (famOf inds x).isNone = true
    · rw [if_pos ⟨trivial, hc⟩, if_pos hc]
    · rw [if_neg (by tauto), if_neg hc]
  refine ⟨?_, ?_, ?_, ?_, ?_, ?_, ?_, ?_, ?_, ?_, ?_⟩
  · intro x hx
    simp only [List.mem_filter, List.mem_range] at hx
    exact hx.1
  · exact List.Nodup.filter _ (List.nodup_range inds.length)
  · intro x hxlt _
    show _ ≠ _ ↔ _
    rw [hdg x]
    by_cases hf : (famOf inds x).isNone = true
    · rw [if_pos ⟨hxlt, hf⟩]
      simp only [ne_eq, one_ne_zero, not_false_eq_true, true_iff]
      exact List.mem_filter.mpr ⟨List.mem_range.mpr hxlt, hf⟩
    · rw [if_neg (by tauto)]
      simp only [ne_eq, not_true_eq_false, false_iff]
      intro hm
      exact hf (List.mem_filter.mp hm).2
  · intro x hxlt hf
    exact List.mem_filter.mpr ⟨List.mem_range.mpr hxlt, hf⟩
  · intro x hx
    obtain ⟨hxr, hf⟩ := List.mem_filter.mp hx
    show (1 : ℚ) ≤ _
    rw [hdg x, if_pos ⟨List.mem_range.mp hxr, hf⟩]
  · intro a b
    show (0 : ℚ) ≤ _
    dsimp only
    split
    · norm_num
    · norm_num
  · intro a b hz
    dsimp only at hz
    split at hz
    · omega
    · exact absurd rfl hz
  · intro x hx _ _
    obtain ⟨hxr, hf⟩ := List.mem_filter.mp hx
    show _ = (1 : ℚ)
    rw [hdg x, if_pos ⟨List.mem_range.mp hxr, hf⟩]
  · intro x hx fa mo hxfam
    obtain ⟨_, hf⟩ := List.mem_filter.mp hx
    rw [hxfam] at hf
    simp at hf
  · intro x hx _ fa mo hxfam
    obtain ⟨_, hf⟩ := List.mem_filter.mp hx
    rw [hxfam] at hf
    simp at hf
  · intro x hx _ fa mo hxfam
    obtain ⟨_, hf⟩ := List.mem_filter.mp hx
    rw [hxfam] at hf
    simp at hf

/-! ## Twin fold-back preserves representative pairs -/

theorem tf_write_pres (itwin : Nat → Nat) (m mmm : Nat → Nat → ℚ) (i j : Nat)
    (hAR : ∀ x y, itwin x = x → itwin y = y → kget mmm x y = kget m x y) :
    ∀ x y, itwin x = x → itwin y = y →
      kget (kset mmm i j (kget mmm (itwin i) (itwin j))) x y = kget m x y := by
  intro x y hx hy
  by_cases hpair : (x = i ∧ y = j) ∨ (x = j ∧ y = i)
  · rw [kget_kset_same' mmm i j _ x y hpair]
    rcases hpair with ⟨e1, e2⟩ | ⟨e1, e2⟩
    · have hi' : itwin i = i := e1 ▸ hx
      have hj' : itwin j = j := e2 ▸ hy
      rw [hi', hj', hAR i j hi' hj', e1, e2]
    · have hj' : itwin j = j := e1 ▸ hx
      have hi' : itwin i = i := e2 ▸ hy
      rw [hi', hj', hAR i j hi' hj', e1, e2, kget_comm m i j]
  · rw [kget_kset_ne mmm i j _ x y hpair]
    exact hAR x y hx hy

theorem twinFold_rep_pres (itwin : Nat → Nat) (n : Nat) (m : Nat → Nat → ℚ) :
    ∀ a b, itwin a = a → itwin b = b →
      kget (twinFold itwin n m) a b = kget m a b := by
  unfold twinFold
  refine foldl_inv _
    (fun mm => ∀ x y, itwin x = x → itwin y = y → kget mm x y = kget m x y)
    (List.range n) ?_ m (fun x y _ _ => rfl)
  intro mm i _ hAR
  have hAR2 : ∀ x y, itwin x = x → itwin y = y →
      kget ((List.range i).foldl
        (fun mmm j => kset mmm i j (kget mmm (itwin i) (itwin j))) mm) x y =
      kget m x y := by
    refine foldl_inv _
      (fun mmm => ∀ x y, itwin x = x → itwin y = y → kget mmm x y = kget m x y)
      (List.range i) ?_ mm hAR
    intro mmm j _ hA
    exact tf_write_pres itwin m mmm i j hA
  exact tf_write_pres itwin m _ i i hAR2

/-! ## Inbreeding flags characterization -/

theorem inbredAux (inds : List KInd) (m : Nat → Nat → ℚ) (l : List Nat)
    (fl : Nat → Bool) (p : Nat) :
    (l.foldl (fun fl i =>
      if 1 < kget m i i then upd fl (inds.getD i dKInd).ped true else fl) fl) p
        = true ↔
    (fl p = true ∨ ∃ i ∈ l, (inds.getD i dKInd).ped = p ∧ 1 < kget m i i) := by
  induction l generalizing fl with
  | nil => simp
  | cons x xs ih =>
    rw [List.foldl_cons, ih]
    constructor
    · rintro (hstep | ⟨i, hi, hp, hk⟩)
      · by_cases hx : 1 < kget m x x
        · rw [if_pos hx] at hstep
          by_cases hpp : p = (inds.getD x dKInd).ped
          · right
            exact ⟨x, List.mem_cons_self x xs, hpp.symm, hx⟩
          · left
            unfold upd at hstep
            rw [if_neg hpp] at hstep
            exact hstep
        · rw [if_neg hx] at hstep
          left
          exact hstep
      · right
        exact ⟨i, List.mem_cons_of_mem _ hi, hp, hk⟩
    · rintro (hfl | ⟨i, hi, hp, hk⟩)
      · left
        by_cases hx : 1 < kget m x x
        · rw [if_pos hx]
          unfold upd
          by_cases hpp : p = (inds.getD x dKInd).ped
          · rw [if_pos hpp]
          · rw [if_neg hpp]
            exact hfl
        · rw [if_neg hx]
          exact hfl
      · rcases List.mem_cons.mp hi with he | hxs
        · subst he
          left
          rw [if_pos hk]
          unfold upd
          rw [if_pos hp.symm]
        · right
          exact ⟨i, hxs, hp, hk⟩

theorem inbredFlags_spec (inds : List KInd) (n : Nat) (m : Nat → Nat → ℚ)
    (p : Nat) :
    inbredFlags inds n m p = true ↔
      ∃ i, i < n ∧ (inds.getD i dKInd).ped = p ∧ 1 < kget m i i := by
  unfold inbredFlags
  rw [inbredAux]
  simp [List.mem_range]

/-! ## Pipeline decomposition -/

theorem calcKin2_spec (inds : List KInd) (fuel : Nat) (out : KOut)
    (h : calcKin2 inds fuel = some out) :
    ∃ s : KState, KInv inds (mkItwin inds) s ∧
      out.itwin = mkItwin inds ∧ out.res = s.res ∧
      out.m = twinFold (mkItwin inds) inds.length s.m ∧
      out.inbred = inbredFlags inds inds.length out.m := by
  unfold calcKin2 at h
  simp only at h
  cases hk : kinLoop inds (mkItwin inds) inds.length (nReps inds) fuel
      (kinInit inds) with
  | none =>
    rw [hk] at h
    exact Option.noConfusion h
  | some s =>
    rw [hk] at h
    simp only at h
    injection h with h2
    refine ⟨s, ?_, ?_, ?_, ?_, ?_⟩
    · exact kinLoop_inv inds (mkItwin inds) (mkItwin_spec inds).1 (nReps inds)
        fuel (kinInit inds) s (kinInit_inv inds (mkItwin inds)) hk
    · rw [← h2]
    · rw [← h2]
    · rw [← h2]
    · rw [← h2]

theorem kget_max_min (m : Nat → Nat → ℚ) (i j : Nat) :
    kget m (max i j) (min i j) = kget m i j := by
  unfold kget
  rw [show max (max i j) (min i j) = max i j by omega,
    show min (max i j) (min i j) = min i j by omega]

/-- A five-individual pedigree with a sibling mating: `0` and `1` are
founders, `2` and `3` are their children, and `4` is the child of `2`
and `3` (hence inbred). -/
def kEx : List KInd :=
  [⟨none, 0, 0⟩, ⟨none, 0, 0⟩, ⟨some (0, 1), 0, 0⟩, ⟨some (0, 1), 0, 0⟩,
   ⟨some (2, 3), 0, 0⟩]

def kOutEx : KOut :=
  (calcKin2 kEx 6).getD ⟨fun _ _ => 0, id, [], fun _ => false⟩

unseal Rat.add Rat.mul Rat.inv in
theorem kEx_run : calcKin2 kEx 6 = some kOutEx := by
  unfold kOutEx
  rfl

/-- **C1.** On every completed `calcKin2` run: a founder representative's
self-coefficient is 1; a resolved representative with recorded parents has
self-coefficient `1 + ½·Φ2(itwin fa, itwin mo)`, and against every
representative resolved earlier `Φ2(max(i,j),min(i,j)) =
½·(Φ2(itwin fa, j) + Φ2(itwin mo, j))` — the recursive kinship
recurrence of ibdprep.c:2148-2184. -/
theorem kinship_recurrence (inds : List KInd) (fuel : Nat) (out : KOut)
    (h : calcKin2 inds fuel = some out) :
    (∀ i, i < inds.length → out.itwin i = i → famOf inds i = none →
      kget out.m i i = 1) ∧
    (∀ i, i ∈ out.res → out.itwin i = i →
      ∀ fa mo, famOf inds i = some (fa, mo) →
      kget out.m i i = 1 + 1/2 * kget out.m (out.itwin fa) (out.itwin mo) ∧
      ∀ j, out.itwin j = j → earlier out.res j i →
        kget out.m (max i j) (min i j) =
          1/2 * (kget out.m (out.itwin fa) j + kget out.m (out.itwin mo) j)) := by
  obtain ⟨s, hinv, hit, hres, hm, _⟩ := calcKin2_spec inds fuel out h
  have hitw : ∀ x, mkItwin inds (mkItwin inds x) = mkItwin inds x :=
    (mkItwin_spec inds).1
  have hpres : ∀ a b, mkItwin inds a = a → mkItwin inds b = b →
      kget out.m a b = kget s.m a b := by
    intro a b ha hb
    rw [hm]
    exact twinFold_rep_pres (mkItwin inds) inds.length s.m a b ha hb
  constructor
  · intro i hi hrep hfam
    rw [hit] at hrep
    have hmem : i ∈ s.res := hinv.fMem i hi (by rw [hfam]; rfl)
    rw [hpres i i hrep hrep]
    exact hinv.fDiag i hmem hrep hfam
  · intro i hmem hrep fa mo hfam
    rw [hit] at hrep
    rw [hres] at hmem
    constructor
    · rw [hit, hpres i i hrep hrep, hpres _ _ (hitw fa) (hitw mo)]
      exact hinv.dEq i hmem hrep fa mo hfam
    · intro j hjrep hearl
      rw [hit] at hjrep
      rw [hres] at hearl
      rw [hit, kget_max_min, hpres i j hrep hjrep,
        hpres _ _ (hitw fa) hjrep, hpres _ _ (hitw mo) hjrep]
      exact hinv.cEq i hmem hrep fa mo hfam j hjrep hearl

unseal Rat.add Rat.mul Rat.inv in
theorem kinship_recurrence_witness :
    kget kOutEx.m 0 0 = 1 ∧
    kget kOutEx.m 4 4 =
      1 + 1/2 * kget kOutEx.m (kOutEx.itwin 2) (kOutEx.itwin 3) ∧
    kget kOutEx.m (max 4 0) (min 4 0) =
      1/2 * (kget kOutEx.m (kOutEx.itwin 2) 0 + kget kOutEx.m (kOutEx.itwin 3) 0) := by
  obtain ⟨h1, h2⟩ := kinship_recurrence kEx 6 kOutEx kEx_run
  obtain ⟨hd, hc⟩ := h2 4 (by decide) (by decide) 2 3 rfl
  exact ⟨h1 0 (by decide) (by decide) rfl, hd,
    hc 0 (by decide) (by unfold earlier; decide)⟩

/-- **C5.** On every completed `calcKin2` run, a pedigree is flagged
inbred iff some individual in it has self-coefficient exceeding 1 in the
output matrix (ibdprep.c:2186-2230). -/
theorem inbred_flag_iff (inds : List KInd) (fuel : Nat) (out : KOut) (p : Nat)
    (h : calcKin2 inds fuel = some out) :
    out.inbred p = true ↔
      ∃ i, i < inds.length ∧ (inds.getD i dKInd).ped = p ∧
        1 < kget out.m i i := by
  obtain ⟨s, _, _, _, _, hin⟩ := calcKin2_spec inds fuel out h
  rw [hin]
  exact inbredFlags_spec inds inds.length out.m p

unseal Rat.add Rat.mul Rat.inv in
theorem inbred_flag_iff_witness :
    (kOutEx.inbred 0 = true ↔
      ∃ i, i < kEx.length ∧ (kEx.getD i dKInd).ped = 0 ∧
        1 < kget kOutEx.m i i) ∧
    kOutEx.inbred 0 = true := by
  refine ⟨inbred_flag_iff kEx 6 kOutEx 0 kEx_run, ?_⟩
  decide

/-- **C6.** On every completed `calcKin2` run, the per-pair `delta7`
value (ibdprep.c:2192-2213) is 1 for co-twins; otherwise, when both
individuals have recorded parents, it is
`¼·(Φ2(fa_i,fa_j)·Φ2(mo_i,mo_j) + Φ2(fa_i,mo_j)·Φ2(mo_i,fa_j))`;
otherwise it is 0. -/
theorem delta7_cases (inds : List KInd) (fuel : Nat) (out : KOut) (i j : Nat)
    (h : calcKin2 inds fuel = some out) :
    (out.itwin i = out.itwin j → delta7 inds out.itwin out.m i j = 1) ∧
    (out.itwin i ≠ out.itwin j →
      ∀ ifa imo jfa jmo, famOf inds i = some (ifa, imo) →
        famOf inds j = some (jfa, jmo) →
        delta7 inds out.itwin out.m i j =
          1/4 * (kget out.m ifa jfa * kget out.m imo jmo +
                 kget out.m ifa jmo * kget out.m imo jfa)) ∧
    (out.itwin i ≠ out.itwin j →
      famOf inds i = none ∨ famOf inds j = none →
      delta7 inds out.itwin out.m i j = 0) := by
  unfold delta7
  refine ⟨fun ht => by rw [if_pos ht],
    fun ht ifa imo jfa jmo hfi hfj => ?_, fun ht hnone => ?_⟩
  · rw [if_neg ht, hfi, hfj]
  · rw [if_neg ht]
    cases hn1 : famOf inds i with
    | none => rfl
    | some p =>
      cases hn2 : famOf inds j with
      | none =>
        obtain ⟨q1, q2⟩ := p
        rfl
      | some q =>
        exfalso
        rcases hnone with h0 | h0
        · rw [hn1] at h0
          exact Option.noConfusion h0
        · rw [hn2] at h0
          exact Option.noConfusion h0

unseal Rat.add Rat.mul Rat.inv in
theorem delta7_cases_witness :
    delta7 kEx kOutEx.itwin kOutEx.m 2 2 = 1 ∧
    delta7 kEx kOutEx.itwin kOutEx.m 3 2 =
      1/4 * (kget kOutEx.m 0 0 * kget kOutEx.m 1 1 +
             kget kOutEx.m 0 1 * kget kOutEx.m 1 0) ∧
    delta7 kEx kOutEx.itwin kOutEx.m 2 0 = 0 := by
  refine ⟨(delta7_cases kEx 6 kOutEx 2 2 kEx_run).1 rfl, ?_, ?_⟩
  · exact (delta7_cases kEx 6 kOutEx 3 2 kEx_run).2.1 (by decide) 0 1 0 1 rfl rfl
  · exact (delta7_cases kEx 6 kOutEx 2 0 kEx_run).2.2 (by decide) (Or.inr rfl)

/-! ## The pedigree partitioner (makePeds / trace, ibdprep.c:1702-1810)

Individuals are indexed `0..rel.length-1`; `rel` gives each individual's
family record (father index, mother index, family id) or `none`.  The five
relation arrays (`relate[0..4]`), the offspring-list builder `point`, the
explicit-stack DFS `trace`, the DFS driver loop and the final
singleton-pedigree loop are embedded below. -/

structure PRec where
  fa : Nat
  mo : Nat
  fid : Nat
  deriving DecidableEq

structure TrRel where
  r0 : Nat → Option Nat
  r1 : Nat → Option Nat
  r2 : Nat → Option Nat
  r3 : Nat → Option Nat
  r4 : Nat → Option Nat

def relGet (r : TrRel) (s : Nat) (c : Nat) : Option Nat :=
  match s with
  | 0 => r.r0 c
  | 1 => r.r1 c
  | 2 => r.r2 c
  | 3 => r.r3 c
  | _ => r.r4 c

/-- The `while (r_next[ind] != -1) ind = r_next[ind];` chain walk inside
`point` (ibdprep.c:1817-1819), followed by the append; fueled. -/
def chase (curind : Nat) (rn : Nat → Option Nat) :
    Nat → Nat → Option (Nat → Option Nat)
  | 0, _ => none
  | fuel + 1, k =>
    match rn k with
    | none => some (upd rn k (some curind))
    | some k2 => chase curind rn fuel k2

/-- `point` (ibdprep.c:1812-1822): record `curind` as an offspring of
`ind`, either as list head (`r_off1`) or appended to the `r_next` chain. -/
def point (curind ind : Nat) (rn ro : Nat → Option Nat) (fuel : Nat) :
    Option ((Nat → Option Nat) × (Nat → Option Nat)) :=
  match ro ind with
  | none => some (rn, upd ro ind (some curind))
  | some j =>
    match chase curind rn fuel j with
    | none => none
    | some rn2 => some (rn2, ro)

/-- One iteration of the relate-building loop (ibdprep.c:1704-1718):
father into `relate[0]` with `point` through `relate[2]/relate[4]`, then
mother into `relate[1]` with `point` through `relate[3]/relate[4]`. -/
def buildStepR (rel : List (Option PRec)) (fuel : Nat) (acc : Option TrRel)
    (c : Nat) : Option TrRel :=
  match acc with
  | none => none
  | some r =>
    match rel.getD c none with
    | none => some r
    | some pr =>
      match point c pr.fa r.r2 r.r4 fuel with
      | none => none
      | some (r2x, r4x) =>
        match point c pr.mo r.r3 r4x fuel with
        | none => none
        | some (r3x, r4y) =>
          some ⟨upd r.r0 c (some pr.fa), upd r.r1 c (some pr.mo), r2x, r3x, r4y⟩

def buildRelate (rel : List (Option PRec)) (fuel : Nat) : Option TrRel :=
  (List.range rel.length).foldl (buildStepR rel fuel)
    (some ⟨fun _ => none, fun _ => none, fun _ => none, fun _ => none,
      fun _ => none⟩)

/-- The DFS machine state: individual pedigree ids, family pedigree ids,
the persistent `state[]` counters, the explicit stack, and `curind`
(`none` models C's `-1`). -/
structure TrSt where
  ped : Nat → Option Nat
  fped : Nat → Option Nat
  st : Nat → Int
  stk : List Nat
  cur : Option Nat

/-- The entry test of one `trace` iteration (ibdprep.c:1787-1795): either
redirect `curind` to the stack top (when `-1` or already assigned), or
push it and stamp its pedigree id (and its family's). -/
def tracePush (rel : List (Option PRec)) (curped : Nat) (s : TrSt) :
    Option (Nat × TrSt) :=
  match s.cur with
  | none =>
    match s.stk with
    | [] => none
    | t :: _ => some (t, { s with cur := some t })
  | some c =>
    if s.ped c ≠ none then
      match s.stk with
      | [] => none
      | t :: _ => some (t, { s with cur := some t })
    else
      some (c, { s with
        stk := c :: s.stk,
        ped := upd s.ped c (some curped),
        fped := match rel.getD c none with
          | some pr => upd s.fped pr.fid (some curped)
          | none => s.fped })

/-- The advance part of one `trace` iteration (ibdprep.c:1796-1808):
bump `state[curind]`, then pop (returning when the stack empties), follow
`relate[state]`, or jump to the spouse through the first offspring. -/
def traceNext (r : TrRel) (c : Nat) (s1 : TrSt) : Option (TrSt × Bool) :=
  let st2 := upd s1.st c (s1.st c + 1)
  if 5 < st2 c then
    match s1.stk with
    | [] => none
    | _ :: rest => some ({ s1 with st := st2, stk := rest }, rest.isEmpty)
  else if st2 c < 5 then
    some ({ s1 with st := st2, cur := relGet r (st2 c).toNat c }, false)
  else
    match r.r4 c with
    | none => some ({ s1 with st := st2 }, false)
    | some ch =>
      let sp := if r.r0 ch = some c then r.r1 ch else r.r0 ch
      some ({ s1 with st := st2, cur := sp }, false)

def traceStep (rel : List (Option PRec)) (r : TrRel) (curped : Nat)
    (s : TrSt) : Option (TrSt × Bool) :=
  match tracePush rel curped s with
  | none => none
  | some (c, s1) => traceNext r c s1

/-- The full `for (;;)` loop of `trace` (ibdprep.c:1781-1810), fueled. -/
def traceRun (rel : List (Option PRec)) (r : TrRel) (curped : Nat) :
    Nat → TrSt → Option TrSt
  | 0, _ => none
  | fuel + 1, s =>
    match traceStep rel r curped s with
    | none => none
    | some (s2, true) => some s2
    | some (s2, false) => traceRun rel r curped fuel s2

/-- `relate[0][c] == -1 && ... && relate[4][c] == -1`: the skip test of
the DFS driver (ibdprep.c:1729-1732). -/
def allNoneAt (r : TrRel) (c : Nat) : Bool :=
  (r.r0 c).isNone && (r.r1 c).isNone && (r.r2 c).isNone &&
    (r.r3 c).isNone && (r.r4 c).isNone

def dfsStepP (rel : List (Option PRec)) (r : TrRel) (tfuel : Nat)
    (acc : Option ((Nat → Option Nat) × (Nat → Option Nat) × (Nat → Int) × Nat))
    (c : Nat) :
    Option ((Nat → Option Nat) × (Nat → Option Nat) × (Nat → Int) × Nat) :=
  match acc with
  | none => none
  | some (pe, fp, st, np) =>
    if allNoneAt r c then some (pe, fp, st, np)
    else
      match pe c with
      | some _ => some (pe, fp, st, np)
      | none =>
        match traceRun rel r np tfuel ⟨pe, fp, st, [], some c⟩ with
        | none => none
        | some s2 => some (s2.ped, s2.fped, s2.st, np + 1)

/-- The DFS driver loop of `makePeds` (ibdprep.c:1728-1737): skip
no-relation individuals, run `trace` on each still-unassigned one with a
fresh pedigree id. -/
def dfsPhase (rel : List (Option PRec)) (r : TrRel) (tfuel : Nat) :
    Option ((Nat → Option Nat) × (Nat → Option Nat) × (Nat → Int) × Nat) :=
  (List.range rel.length).foldl (dfsStepP rel r tfuel)
    (some (fun _ => none, fun _ => none, fun _ => -1, 0))

structure Ped3 where
  nind : Nat
  nfam : Nat
  nfou : Nat
  deriving DecidableEq

/-- The final loop of `makePeds` (ibdprep.c:1760-1778): each still
unassigned individual becomes its own fresh singleton pedigree with
`nind = 1, nfam = 0, nfou = 1`; assigned ones bump their pedigree's
`nind` (and `nfou` if they are founders). -/
def singStep (rel : List (Option PRec))
    (acc : (Nat → Option Nat) × Nat × (Nat → Ped3)) (i : Nat) :
    (Nat → Option Nat) × Nat × (Nat → Ped3) :=
  match acc.1 i with
  | none => (upd acc.1 i (some acc.2.1), acc.2.1 + 1,
      upd acc.2.2 acc.2.1 ⟨1, 0, 1⟩)
  | some q => (acc.1, acc.2.1,
      upd acc.2.2 q ⟨(acc.2.2 q).nind + 1, (acc.2.2 q).nfam,
        (acc.2.2 q).nfou + (if (rel.getD i none).isNone then 1 else 0)⟩)

def mkSingles (rel : List (Option PRec)) (ped : Nat → Option Nat) (np : Nat)
    (arr : Nat → Ped3) : (Nat → Option Nat) × Nat × (Nat → Ped3) :=
  (List.range rel.length).foldl (singStep rel) (ped, np, arr)

/-! ## Builder consistency: a no-relation individual is never a relate value -/

theorem chase_spec (c : Nat) : ∀ fuel (rn : Nat → Option Nat) k rn2,
    chase c rn fuel k = some rn2 → ∀ z, rn2 z = rn z ∨ rn2 z = some c := by
  intro fuel
  induction fuel with
  | zero =>
    intro rn k rn2 h
    exact Option.noConfusion h
  | succ f ih =>
    intro rn k rn2 h z
    unfold chase at h
    cases hk : rn k with
    | none =>
      rw [hk] at h
      simp only at h
      injection h with h
      rw [← h]
      unfold upd
      by_cases hz : z = k
      · right; rw [if_pos hz]
      · left; rw [if_neg hz]
    | some k2 =>
      rw [hk] at h
      simp only at h
      exact ih rn k2 rn2 h z

theorem point_spec (c ind : Nat) (rn ro : Nat → Option Nat) (fuel : Nat)
    (rn2 ro2 : Nat → Option Nat)
    (h : point c ind rn ro fuel = some (rn2, ro2)) :
    (∀ z, rn2 z = rn z ∨ rn2 z = some c) ∧
    (∀ z, ro2 z = ro z ∨ ro2 z = some c) ∧ ro2 ind ≠ none := by
  unfold point at h
  cases hro : ro ind with
  | none =>
    rw [hro] at h
    simp only at h
    injection h with h
    obtain ⟨h1, h2⟩ := Prod.mk.injEq .. ▸ h
    refine ⟨fun z => Or.inl (by rw [← h1]), fun z => ?_, ?_⟩
    · rw [← h2]
      unfold upd
      by_cases hz : z = ind
      · right; rw [if_pos hz]
      · left; rw [if_neg hz]
    · rw [← h2]
      unfold upd
      rw [if_pos rfl]
      simp
  | some j =>
    rw [hro] at h
    simp only at h
    cases hch : chase c rn fuel j with
    | none =>
      rw [hch] at h
      exact Option.noConfusion h
    | some rn3 =>
      rw [hch] at h
      simp only at h
      injection h with h
      obtain ⟨h1, h2⟩ := Prod.mk.injEq .. ▸ h
      refine ⟨fun z => by rw [← h1]; exact chase_spec c fuel rn j rn3 hch z,
        fun z => Or.inl (by rw [← h2]), ?_⟩
      rw [← h2, hro]
      simp

/-- Cross-array consistency of the relate arrays: parents recorded in
`relate[0]/relate[1]` have an offspring entry in `relate[4]`; entries of
`relate[2]/relate[3]/relate[4]` are individuals with a recorded father. -/
def VInvR (r : TrRel) : Prop :=
  (∀ c y, r.r0 c = some y → r.r4 y ≠ none) ∧
  (∀ c y, r.r1 c = some y → r.r4 y ≠ none) ∧
  (∀ c y, r.r2 c = some y → r.r0 y ≠ none) ∧
  (∀ c y, r.r3 c = some y → r.r0 y ≠ none) ∧
  (∀ c y, r.r4 c = some y → r.r0 y ≠ none)

theorem buildStepR_inv (rel : List (Option PRec)) (fuel : Nat)
    (acc : Option TrRel) (c : Nat)
    (h : ∀ r, acc = some r → VInvR r) :
    ∀ r2, buildStepR rel fuel acc c = some r2 → VInvR r2 := by
  intro rr hb
  unfold buildStepR at hb
  cases acc with
  | none => exact Option.noConfusion hb
  | some r =>
    have hr := h r rfl
    simp only at hb
    cases hrel : rel.getD c none with
    | none =>
      rw [hrel] at hb
      simp only at hb
      injection hb with hb
      rw [← hb]
      exact hr
    | some pr =>
      rw [hrel] at hb
      simp only at hb
      cases hp1 : point c pr.fa r.r2 r.r4 fuel with
      | none =>
        rw [hp1] at hb
        exact Option.noConfusion hb
      | some q1 =>
        obtain ⟨r2x, r4x⟩ := q1
        rw [hp1] at hb
        simp only at hb
        cases hp2 : point c pr.mo r.r3 r4x fuel with
        | none =>
          rw [hp2] at hb
          exact Option.noConfusion hb
        | some q2 =>
          obtain ⟨r3x, r4y⟩ := q2
          rw [hp2] at hb
          simp only at hb
          injection hb with hb
          rw [← hb]
          obtain ⟨hrn1, hro1, hne1⟩ := point_spec c pr.fa r.r2 r.r4 fuel r2x r4x hp1
          obtain ⟨hrn2, hro2, hne2⟩ := point_spec c pr.mo r.r3 r4x fuel r3x r4y hp2
          obtain ⟨v0, v1, v2, v3, v4⟩ := hr
          have hmono4 : ∀ y, r.r4 y ≠ none → r4y y ≠ none := by
            intro y hy
            rcases hro2 y with he | he
            · rw [he]
              rcases hro1 y with he2 | he2
              · rw [he2]; exact hy
              · rw [he2]; simp
            · rw [he]; simp
          have hmono4x : ∀ y, r4x y ≠ none → r4y y ≠ none := by
            intro y hy
            rcases hro2 y with he | he
            · rw [he]; exact hy
            · rw [he]; simp
          have hr0c : ∀ y, r.r0 y ≠ none → upd r.r0 c (some pr.fa) y ≠ none := by
            intro y hy
            unfold upd
            by_cases hyc : y = c
            · rw [if_pos hyc]; simp
            · rw [if_neg hyc]; exact hy
          have hr0self : upd r.r0 c (some pr.fa) c ≠ none := by
            unfold upd
            rw [if_pos rfl]
            simp
          refine ⟨?_, ?_, ?_, ?_, ?_⟩
          · intro c2 y hy
            dsimp only at hy ⊢
            unfold upd at hy
            by_cases hc2 : c2 = c
            · rw [if_pos hc2] at hy
              injection hy with hy
              rw [← hy]
              exact hmono4x pr.fa hne1
            · rw [if_neg hc2] at hy
              exact hmono4 y (v0 c2 y hy)
          · intro c2 y hy
            dsimp only at hy ⊢
            unfold upd at hy
            by_cases hc2 : c2 = c
            · rw [if_pos hc2] at hy
              injection hy with hy
              rw [← hy]
              exact hne2
            · rw [if_neg hc2] at hy
              exact hmono4 y (v1 c2 y hy)
          · intro c2 y hy
            dsimp only at hy ⊢
            rcases hrn1 c2 with he | he
            · rw [he] at hy
              exact hr0c y (v2 c2 y hy)
            · rw [he] at hy
              injection hy with hy
              rw [← hy]
              exact hr0self
          · intro c2 y hy
            dsimp only at hy ⊢
            rcases hrn2 c2 with he | he
            · rw [he] at hy
              exact hr0c y (v3 c2 y hy)
            · rw [he] at hy
              injection hy with hy
              rw [← hy]
              exact hr0self
          · intro c2 y hy
            dsimp only at hy ⊢
            rcases hro2 c2 with he | he
            · rw [he] at hy
              rcases hro1 c2 with he2 | he2
              · rw [he2] at hy
                exact hr0c y (v4 c2 y hy)
              · rw [he2] at hy
                injection hy with hy
                rw [← hy]
                exact hr0self
            · rw [he] at hy
              injection hy with hy
              rw [← hy]
              exact hr0self

theorem buildRelate_inv (rel : List (Option PRec)) (fuel : Nat) (r : TrRel)
    (h : buildRelate rel fuel = some r) : VInvR r := by
  unfold buildRelate at h
  refine foldl_inv (buildStepR rel fuel)
    (fun acc => ∀ r2, acc = some r2 → VInvR r2)
    (List.range rel.length)
    (fun b a _ hb => buildStepR_inv rel fuel b a hb)
    (some ⟨fun _ => none, fun _ => none, fun _ => none, fun _ => none,
      fun _ => none⟩) ?_ r h
  intro r2 h2
  injection h2 with h2
  rw [← h2]
  exact ⟨fun c y hc => Option.noConfusion hc, fun c y hc => Option.noConfusion hc,
    fun c y hc => Option.noConfusion hc, fun c y hc => Option.noConfusion hc,
    fun c y hc => Option.noConfusion hc⟩

theorem allNone_not_value (r : TrRel) (hv : VInvR r) (x : Nat)
    (hx : allNoneAt r x = true) : ∀ s c, relGet r s c ≠ some x := by
  unfold allNoneAt at hx
  simp only [Bool.and_eq_true, Option.isNone_iff_eq_none] at hx
  obtain ⟨⟨⟨⟨h0, h1⟩, h2⟩, h3⟩, h4⟩ := hx
  obtain ⟨v0, v1, v2, v3, v4⟩ := hv
  intro s c hc
  match s, hc with
  | 0, hc => exact v0 c x hc h4
  | 1, hc => exact v1 c x hc h4
  | 2, hc => exact v2 c x hc h0
  | 3, hc => exact v3 c x hc h0
  | n + 4, hc => exact v4 c x hc h0

/-! ## One DFS iteration: case analysis -/

theorem tracePush_spec (rel : List (Option PRec)) (curped : Nat) (s : TrSt)
    (c : Nat) (s1 : TrSt) (h : tracePush rel curped s = some (c, s1)) :
    (s.stk.head? = some c ∧ s1.ped = s.ped ∧ s1.fped = s.fped ∧
      s1.st = s.st ∧ s1.stk = s.stk ∧ s1.cur = some c) ∨
    (s.cur = some c ∧ s.ped c = none ∧ s1.ped = upd s.ped c (some curped) ∧
      (s1.fped = s.fped ∨ ∃ f, s1.fped = upd s.fped f (some curped)) ∧
      s1.st = s.st ∧ s1.stk = c :: s.stk ∧ s1.cur = some c) := by
  unfold tracePush at h
  cases hc : s.cur with
  | none =>
    rw [hc] at h
    cases hs : s.stk with
    | nil =>
      rw [hs] at h
      exact Option.noConfusion h
    | cons t rest =>
      rw [hs] at h
      simp only at h
      injection h with h
      obtain ⟨h1, h2⟩ := Prod.mk.injEq .. ▸ h
      cases h1
      rw [← h2]
      exact Or.inl ⟨rfl, rfl, rfl, rfl, rfl, rfl⟩
  | some c0 =>
    rw [hc] at h
    simp only at h
    by_cases hp : s.ped c0 ≠ none
    · rw [if_pos hp] at h
      cases hs : s.stk with
      | nil =>
        rw [hs] at h
        exact Option.noConfusion h
      | cons t rest =>
        rw [hs] at h
        simp only at h
        injection h with h
        obtain ⟨h1, h2⟩ := Prod.mk.injEq .. ▸ h
        cases h1
        rw [← h2]
        exact Or.inl ⟨rfl, rfl, rfl, rfl, rfl, rfl⟩
    · rw [if_neg hp] at h
      injection h with h
      obtain ⟨h1, h2⟩ := Prod.mk.injEq .. ▸ h
      cases h1
      rw [← h2]
      refine Or.inr ⟨rfl, not_not.mp hp, rfl, ?_, rfl, rfl, rfl⟩
      cases hr : rel.getD c none with
      | none => exact Or.inl rfl
      | some pr => exact Or.inr ⟨pr.fid, rfl⟩

theorem traceNext_spec (r : TrRel) (c : Nat) (s1 s2 : TrSt) (b : Bool)
    (h : traceNext r c s1 = some (s2, b)) :
    s2.ped = s1.ped ∧ s2.fped = s1.fped ∧
    (∀ y, y ∈ s2.stk → y ∈ s1.stk) ∧
    (s2.cur = s1.cur ∨ ∃ t c2, s2.cur = relGet r t c2) := by
  unfold traceNext at h
  by_cases h5 : 5 < upd s1.st c (s1.st c + 1) c
  · rw [if_pos h5] at h
    cases hs : s1.stk with
    | nil =>
      rw [hs] at h
      exact Option.noConfusion h
    | cons t rest =>
      rw [hs] at h
      simp only at h
      injection h with h
      obtain ⟨h1, _⟩ := Prod.mk.injEq .. ▸ h
      rw [← h1]
      exact ⟨rfl, rfl, fun y hy => List.mem_cons_of_mem _ hy, Or.inl rfl⟩
  · rw [if_neg h5] at h
    by_cases hlt : upd s1.st c (s1.st c + 1) c < 5
    · rw [if_pos hlt] at h
      injection h with h
      obtain ⟨h1, _⟩ := Prod.mk.injEq .. ▸ h
      rw [← h1]
      exact ⟨rfl, rfl, fun y hy => hy, Or.inr ⟨_, c, rfl⟩⟩
    · rw [if_neg hlt] at h
      cases h4 : r.r4 c with
      | none =>
        rw [h4] at h
        simp only at h
        injection h with h
        obtain ⟨h1, _⟩ := Prod.mk.injEq .. ▸ h
        rw [← h1]
        exact ⟨rfl, rfl, fun y hy => hy, Or.inl rfl⟩
      | some ch =>
        rw [h4] at h
        simp only at h
        injection h with h
        obtain ⟨h1, _⟩ := Prod.mk.injEq .. ▸ h
        rw [← h1]
        refine ⟨rfl, rfl, fun y hy => hy, Or.inr ?_⟩
        by_cases he : r.r0 ch = some c
        · refine ⟨1, ch, ?_⟩
          show (if r.r0 ch = some c then r.r1 ch else r.r0 ch) = relGet r 1 ch
          rw [if_pos he]
          rfl
        · refine ⟨0, ch, ?_⟩
          show (if r.r0 ch = some c then r.r1 ch else r.r0 ch) = relGet r 0 ch
          rw [if_neg he]
          rfl

theorem traceRun_writes (rel : List (Option PRec)) (r : TrRel) (curped : Nat) :
    ∀ fuel s out, traceRun rel r curped fuel s = some out →
      ∀ y, (out.ped y = s.ped y ∨ out.ped y = some curped) ∧
           (out.fped y = s.fped y ∨ out.fped y = some curped) := by
  intro fuel
  induction fuel with
  | zero =>
    intro s out h
    exact Option.noConfusion h
  | succ f ih =>
    intro s out h y
    unfold traceRun at h
    cases hstep : traceStep rel r curped s with
    | none =>
      rw [hstep] at h
      exact Option.noConfusion h
    | some p =>
      obtain ⟨s2, b⟩ := p
      rw [hstep] at h
      have hw : (∀ z, s2.ped z = s.ped z ∨ s2.ped z = some curped) ∧
                (∀ z, s2.fped z = s.fped z ∨ s2.fped z = some curped) := by
        unfold traceStep at hstep
        cases hpu : tracePush rel curped s with
        | none =>
          rw [hpu] at hstep
          exact Option.noConfusion hstep
        | some q =>
          obtain ⟨c, s1⟩ := q
          rw [hpu] at hstep
          have hps := tracePush_spec rel curped s c s1 hpu
          have hns := traceNext_spec r c s1 s2 b hstep
          constructor
          · intro z
            rw [hns.1]
            rcases hps with ⟨_, hp, _⟩ | ⟨_, _, hp, _⟩
            · rw [hp]; exact Or.inl rfl
            · rw [hp]
              unfold upd
              by_cases hz : z = c
              · right; rw [if_pos hz]
              · left; rw [if_neg hz]
          · intro z
            rw [hns.2.1]
            rcases hps with ⟨_, _, hp, _⟩ | ⟨_, _, _, hp, _⟩
            · rw [hp]; exact Or.inl rfl
            · rcases hp with hp | ⟨fidv, hp⟩
              · rw [hp]; exact Or.inl rfl
              · rw [hp]
                unfold upd
                by_cases hz : z = fidv
                · right; rw [if_pos hz]
                · left; rw [if_neg hz]
      cases b with
      | true =>
        simp only at h
        injection h with h
        rw [← h]
        exact ⟨hw.1 y, hw.2 y⟩
      | false =>
        simp only at h
        obtain ⟨hpy, hfy⟩ := ih s2 out h y
        constructor
        · rcases hpy with hpy | hpy
          · rw [hpy]; exact hw.1 y
          · exact Or.inr hpy
        · rcases hfy with hfy | hfy
          · rw [hfy]; exact hw.2 y
          · exact Or.inr hfy

theorem traceRun_avoid (rel : List (Option PRec)) (r : TrRel) (curped x : Nat)
    (hx : ∀ t c2, relGet r t c2 ≠ some x) :
    ∀ fuel s out, traceRun rel r curped fuel s = some out →
      s.cur ≠ some x → x ∉ s.stk → out.ped x = s.ped x := by
  intro fuel
  induction fuel with
  | zero =>
    intro s out h _ _
    exact Option.noConfusion h
  | succ f ih =>
    intro s out h hcur hstk
    unfold traceRun at h
    cases hstep : traceStep rel r curped s with
    | none =>
      rw [hstep] at h
      exact Option.noConfusion h
    | some p =>
      obtain ⟨s2, b⟩ := p
      rw [hstep] at h
      have hstep2 : s2.ped x = s.ped x ∧ s2.cur ≠ some x ∧ x ∉ s2.stk := by
        unfold traceStep at hstep
        cases hpu : tracePush rel curped s with
        | none =>
          rw [hpu] at hstep
          exact Option.noConfusion hstep
        | some q =>
          obtain ⟨c, s1⟩ := q
          rw [hpu] at hstep
          have hps := tracePush_spec rel curped s c s1 hpu
          have hns := traceNext_spec r c s1 s2 b hstep
          have hcx : c ≠ x := by
            rcases hps with ⟨hh, _⟩ | ⟨hh, _⟩
            · intro he
              apply hstk
              rw [he] at hh
              cases hs : s.stk with
              | nil => rw [hs] at hh; exact Option.noConfusion hh
              | cons t rest =>
                rw [hs] at hh
                injection hh with hh
                exact hh ▸ List.mem_cons_self t rest
            · intro he
              rw [he] at hh
              exact hcur hh
          have h1 : s1.ped x = s.ped x ∧ s1.cur ≠ some x ∧ x ∉ s1.stk := by
            rcases hps with ⟨_, hp, _, _, hk, hcu⟩ | ⟨_, _, hp, _, _, hk, hcu⟩
            · refine ⟨by rw [hp], ?_, by rw [hk]; exact hstk⟩
              rw [hcu]
              exact fun he => hcx (Option.some.inj he)
            · refine ⟨?_, ?_, ?_⟩
              · rw [hp]
                unfold upd
                rw [if_neg (fun hxe => hcx hxe.symm)]
              · rw [hcu]
                exact fun he => hcx (Option.some.inj he)
              · rw [hk]
                intro hm
                rcases List.mem_cons.mp hm with he | hm2
                · exact hcx he.symm
                · exact hstk hm2
          obtain ⟨hps1, hcur1, hstk1⟩ := h1
          refine ⟨by rw [hns.1]; exact hps1, ?_,
            fun hm => hstk1 (hns.2.2.1 x hm)⟩
          rcases hns.2.2.2 with hcc | ⟨t, c2, hcc⟩
          · rw [hcc]; exact hcur1
          · rw [hcc]; exact hx t c2
      cases b with
      | true =>
        simp only at h
        injection h with h
        rw [← h]
        exact hstep2.1
      | false =>
        simp only at h
        rw [ih s2 out h hstep2.2.1 hstep2.2.2, hstep2.1]

theorem dfsPhase_spec (rel : List (Option PRec)) (r : TrRel) (tfuel : Nat)
    (x : Nat) (hx : ∀ t c2, relGet r t c2 ≠ some x)
    (hax : allNoneAt r x = true) :
    ∀ pe fp st np, dfsPhase rel r tfuel = some (pe, fp, st, np) →
      (∀ y q, pe y = some q → q < np) ∧ pe x = none := by
  unfold dfsPhase
  refine fun pe fp st np h => foldl_inv (dfsStepP rel r tfuel)
    (fun acc => ∀ pe2 fp2 st2 np2, acc = some (pe2, fp2, st2, np2) →
      (∀ y q, pe2 y = some q → q < np2) ∧ pe2 x = none)
    (List.range rel.length) ?_
    (some (fun _ => none, fun _ => none, fun _ => -1, 0)) ?_ pe fp st np h
  · intro acc c _ hP pe2 fp2 st2 np2 hs
    unfold dfsStepP at hs
    cases acc with
    | none => exact Option.noConfusion hs
    | some t =>
      obtain ⟨pe0, fp0, st0, np0⟩ := t
      obtain ⟨hb0, hx0⟩ := hP pe0 fp0 st0 np0 rfl
      simp only at hs
      by_cases hall : allNoneAt r c
      · rw [if_pos hall] at hs
        injection hs with hs
        simp only [Prod.mk.injEq] at hs
        obtain ⟨rfl, rfl, rfl, rfl⟩ := hs
        exact ⟨hb0, hx0⟩
      · rw [if_neg hall] at hs
        cases hpc : pe0 c with
        | some q0 =>
          rw [hpc] at hs
          simp only at hs
          injection hs with hs
          simp only [Prod.mk.injEq] at hs
          obtain ⟨rfl, rfl, rfl, rfl⟩ := hs
          exact ⟨hb0, hx0⟩
        | none =>
          rw [hpc] at hs
          simp only at hs
          cases htr : traceRun rel r np0 tfuel ⟨pe0, fp0, st0, [], some c⟩ with
          | none =>
            rw [htr] at hs
            exact Option.noConfusion hs
          | some s2 =>
            rw [htr] at hs
            simp only at hs
            injection hs with hs
            simp only [Prod.mk.injEq] at hs
            obtain ⟨rfl, rfl, rfl, rfl⟩ := hs
            have hcx : c ≠ x := by
              intro he
              rw [he] at hall
              exact hall hax
            constructor
            · intro y q hy
              rcases (traceRun_writes rel r np0 tfuel _ s2 htr y).1 with hh | hh
              · rw [hy] at hh
                have := hb0 y q hh.symm
                omega
              · rw [hy] at hh
                injection hh.symm with he
                omega
            · rw [traceRun_avoid rel r np0 x hx tfuel _ s2 htr
                (fun he => hcx (Option.some.inj he)) (List.not_mem_nil x)]
              exact hx0
  · intro pe2 fp2 st2 np2 h2
    injection h2 with h2
    simp only [Prod.mk.injEq] at h2
    obtain ⟨rfl, rfl, rfl, rfl⟩ := h2
    exact ⟨fun y q hy => Option.noConfusion hy, rfl⟩

/-! ## The singleton-pedigree loop -/

/-- State of the final loop after the still-unassigned individual `x` has
been processed: it owns the fresh pedigree id `px` with counts
`(1, 0, 1)`, and nobody else maps to `px`. -/
def SingAfter (x px : Nat) (t : (Nat → Option Nat) × Nat × (Nat → Ped3)) :
    Prop :=
  (∀ y q, t.1 y = some q → q < t.2.1) ∧ px < t.2.1 ∧ t.1 x = some px ∧
  t.2.2 px = ⟨1, 0, 1⟩ ∧ (∀ y, t.1 y = some px → y = x)

def SingBefore (np x : Nat) (t : (Nat → Option Nat) × Nat × (Nat → Ped3)) :
    Prop :=
  (∀ y q, t.1 y = some q → q < t.2.1) ∧ np ≤ t.2.1 ∧ t.1 x = none

theorem singStep_after (rel : List (Option PRec)) (x px i : Nat) (hix : i ≠ x)
    (t : (Nat → Option Nat) × Nat × (Nat → Ped3)) (h : SingAfter x px t) :
    SingAfter x px (singStep rel t i) := by
  obtain ⟨hb, hlt, hx, ha, hu⟩ := h
  unfold singStep
  cases hti : t.1 i with
  | none =>
    simp only
    refine ⟨?_, ?_, ?_, ?_, ?_⟩
    · intro y q hy
      dsimp only at hy ⊢
      unfold upd at hy
      by_cases hyi : y = i
      · rw [if_pos hyi] at hy
        injection hy with hy
        omega
      · rw [if_neg hyi] at hy
        have := hb y q hy
        omega
    · dsimp only
      omega
    · show upd t.1 i (some t.2.1) x = some px
      unfold upd
      rw [if_neg (fun he => hix he.symm)]
      exact hx
    · show upd t.2.2 t.2.1 ⟨1, 0, 1⟩ px = ⟨1, 0, 1⟩
      unfold upd
      rw [if_neg (by omega)]
      exact ha
    · intro y hy
      dsimp only at hy
      unfold upd at hy
      by_cases hyi : y = i
      · rw [if_pos hyi] at hy
        injection hy with hy
        omega
      · rw [if_neg hyi] at hy
        exact hu y hy
  | some q =>
    simp only
    have hqx : q ≠ px := fun he => hix (hu i (he ▸ hti))
    refine ⟨hb, hlt, hx, ?_, hu⟩
    show upd t.2.2 q _ px = ⟨1, 0, 1⟩
    unfold upd
    rw [if_neg (fun he => hqx he.symm)]
    exact ha

theorem singStep_before (rel : List (Option PRec)) (np x i : Nat)
    (hix : i ≠ x) (t : (Nat → Option Nat) × Nat × (Nat → Ped3))
    (h : SingBefore np x t) : SingBefore np x (singStep rel t i) := by
  obtain ⟨hb, hnp, hxn⟩ := h
  unfold singStep
  cases hti : t.1 i with
  | none =>
    simp only
    refine ⟨?_, ?_, ?_⟩
    · intro y q hy
      dsimp only at hy ⊢
      unfold upd at hy
      by_cases hyi : y = i
      · rw [if_pos hyi] at hy
        injection hy with hy
        omega
      · rw [if_neg hyi] at hy
        have := hb y q hy
        omega
    · dsimp only
      omega
    · show upd t.1 i (some t.2.1) x = none
      unfold upd
      rw [if_neg (fun he => hix he.symm)]
      exact hxn
  | some q =>
    simp only
    exact ⟨hb, hnp, hxn⟩

theorem singFold_main (rel : List (Option PRec)) (np x : Nat) :
    ∀ l : List Nat, l.Nodup → x ∈ l →
      ∀ t, SingBefore np x t →
        ∃ px, np ≤ px ∧ SingAfter x px (l.foldl (singStep rel) t) := by
  intro l
  induction l with
  | nil =>
    intro _ hx
    exact absurd hx (List.not_mem_nil x)
  | cons i rest ih =>
    intro hnd hxm t hbef
    rw [List.foldl_cons]
    rcases List.mem_cons.mp hxm with he | hxr
    · have hxrest : x ∉ rest := he ▸ (List.nodup_cons.mp hnd).1
      obtain ⟨hb, hnp, hxn⟩ := hbef
      have hti : t.1 i = none := by rw [← he]; exact hxn
      have hstep : SingAfter x t.2.1 (singStep rel t i) := by
        unfold singStep
        rw [hti]
        simp only
        refine ⟨?_, ?_, ?_, ?_, ?_⟩
        · intro y q hy
          dsimp only at hy ⊢
          unfold upd at hy
          by_cases hyi : y = i
          · rw [if_pos hyi] at hy
            injection hy with hy
            omega
          · rw [if_neg hyi] at hy
            have := hb y q hy
            omega
        · dsimp only
          omega
        · show upd t.1 i (some t.2.1) x = some t.2.1
          unfold upd
          rw [if_pos he]
        · show upd t.2.2 t.2.1 ⟨1, 0, 1⟩ t.2.1 = ⟨1, 0, 1⟩
          unfold upd
          rw [if_pos rfl]
        · intro y hy
          dsimp only at hy
          unfold upd at hy
          by_cases hyi : y = i
          · rw [hyi, ← he]
          · rw [if_neg hyi] at hy
            have := hb y _ hy
            omega
      exact ⟨t.2.1, hnp,
        (foldl_inv (singStep rel) (SingAfter x t.2.1) rest
          (fun b a ha hb2 =>
            singStep_after rel x t.2.1 a (fun hax => hxrest (hax ▸ ha)) b hb2)
          _ hstep)⟩
    · have hix : i ≠ x := fun he2 =>
        (List.nodup_cons.mp hnd).1 (he2 ▸ hxr)
      exact ih (List.nodup_cons.mp hnd).2 hxr _
        (singStep_before rel np x i hix t hbef)

/-- **C8.** For the pedigree partitioner: (1) one DFS run of `trace`
writes no pedigree id other than its own `curped`, on individuals and on
families alike; (2) an individual `x` with no relations in any of the
five relate arrays is skipped by the DFS driver — its id is still
unassigned afterwards — and the final loop then makes it its own fresh
singleton pedigree with counts `nind = 1, nfam = 0, nfou = 1`
(ibdprep.c:1727-1810). -/
theorem partitioner_dfs_singletons (rel : List (Option PRec)) (r : TrRel)
    (bfuel tfuel : Nat) (hb : buildRelate rel bfuel = some r) :
    (∀ curped c0 ped0 fped0 st0 out,
      traceRun rel r curped tfuel ⟨ped0, fped0, st0, [], some c0⟩ = some out →
      ∀ y, (out.ped y = ped0 y ∨ out.ped y = some curped) ∧
           (out.fped y = fped0 y ∨ out.fped y = some curped)) ∧
    (∀ x, x < rel.length → allNoneAt r x = true →
      ∀ pe fp st np, dfsPhase rel r tfuel = some (pe, fp, st, np) →
        pe x = none ∧
        ∀ arr, ∃ px, np ≤ px ∧ (mkSingles rel pe np arr).1 x = some px ∧
          (mkSingles rel pe np arr).2.2 px = ⟨1, 0, 1⟩) := by
  constructor
  · intro curped c0 ped0 fped0 st0 out h y
    exact traceRun_writes rel r curped tfuel _ out h y
  · intro x hxlt hax pe fp st np hdfs
    have hvinv := buildRelate_inv rel bfuel r hb
    have hx := allNone_not_value r hvinv x hax
    obtain ⟨hbound, hnone⟩ := dfsPhase_spec rel r tfuel x hx hax pe fp st np hdfs
    refine ⟨hnone, ?_⟩
    intro arr
    obtain ⟨px, hpx, hafter⟩ := singFold_main rel np x (List.range rel.length)
      (List.nodup_range _) (List.mem_range.mpr hxlt) (pe, np, arr)
      ⟨hbound, le_refl np, hnone⟩
    exact ⟨px, hpx, hafter.2.2.1, hafter.2.2.2.1⟩

/-- A four-individual example: `2` is the child of founders `0` and `1`
(family id 0); `3` has no relations at all. -/
def relEx : List (Option PRec) := [none, none, some ⟨0, 1, 0⟩, none]

def rEx : TrRel :=
  (buildRelate relEx 10).getD
    ⟨fun _ => none, fun _ => none, fun _ => none, fun _ => none, fun _ => none⟩

theorem relEx_build : buildRelate relEx 10 = some rEx := by
  unfold rEx
  rfl

def trInEx : TrSt := ⟨fun _ => none, fun _ => none, fun _ => -1, [], some 0⟩

def trOutEx : TrSt := (traceRun relEx rEx 7 60 trInEx).getD trInEx

def dfsOutEx : (Nat → Option Nat) × (Nat → Option Nat) × (Nat → Int) × Nat :=
  (dfsPhase relEx rEx 60).getD (fun _ => none, fun _ => none, fun _ => -1, 0)

theorem opt_eq_some_getD {α : Type} (o : Option α) (d : α)
    (h : o.isSome = true) : o = some (o.getD d) := by
  cases o with
  | none => exact absurd h (by simp)
  | some v => rfl

theorem partitioner_dfs_singletons_witness :
    ((trOutEx.ped 2 = (fun _ => (none : Option Nat)) 2 ∨
        trOutEx.ped 2 = some 7) ∧ trOutEx.ped 2 = some 7) ∧
    dfsOutEx.1 3 = none ∧
    (∃ px, dfsOutEx.2.2.2 ≤ px ∧
      (mkSingles relEx dfsOutEx.1 dfsOutEx.2.2.2 (fun _ => ⟨0, 0, 0⟩)).1 3 =
        some px ∧
      (mkSingles relEx dfsOutEx.1 dfsOutEx.2.2.2 (fun _ => ⟨0, 0, 0⟩)).2.2 px =
        ⟨1, 0, 1⟩) := by
  obtain ⟨hA, hB⟩ := partitioner_dfs_singletons relEx rEx 10 60 relEx_build
  have htr : traceRun relEx rEx 7 60 trInEx = some trOutEx := by
    unfold trOutEx
    exact opt_eq_some_getD _ _ (by decide)
  have hdfs : dfsPhase relEx rEx 60 = some dfsOutEx := by
    unfold dfsOutEx
    exact opt_eq_some_getD _ _ (by decide)
  have h1 := hA 7 0 (fun _ => none) (fun _ => none) (fun _ => -1) trOutEx htr 2
  have h2 := hB 3 (by decide) (by decide) dfsOutEx.1 dfsOutEx.2.1
    dfsOutEx.2.2.1 dfsOutEx.2.2.2 hdfs
  exact ⟨⟨h1.1, by decide⟩, h2.1, h2.2 (fun _ => ⟨0, 0, 0⟩)⟩

end IbdPrep
